import Mathlib

/-!
Verification of the ZeroTrace secure-deletion core against its source.

The Python modules `backend/core/nist_algorithms.py`,
`backend/core/wiping_engine.py`, `backend/core/certificate.py` and
`backend/utils/validation.py` are shallowly embedded below.  Pure loops
become structurally recursive Lean functions; the filesystem, the entropy
source (`secrets.token_bytes`) and I/O failures are passed in explicitly as
parameters, so every embedded operation is a total, executable function.
Machine integers are modelled as `Nat`; the progress percentages computed
with Python float division are modelled with exact rationals (the claims
about them do not depend on rounding).
-/

namespace ZeroTrace

/-- `NISTAlgorithms.BLOCK_SIZE`: 64 KiB blocks (nist_algorithms.py line 25). -/
def BLOCK_SIZE : Nat := 65536

/-! ## The write loop of `clear_method` / `_overwrite_pass`

Both loops have the shape

    bytes_written = 0
    while bytes_written < file_size:
        chunk_size = min(BLOCK_SIZE, file_size - bytes_written)
        f.write(data of length chunk_size)
        bytes_written += chunk_size

We model the sequence of chunk sizes produced by this loop, as a function of
the remaining byte count `n = file_size - bytes_written`. -/

/-- The list of chunk sizes the write loop produces for `n` remaining bytes. -/
def chunkSizes (n : Nat) : List Nat :=
  if h : 0 < n then
    min BLOCK_SIZE n :: chunkSizes (n - min BLOCK_SIZE n)
  else []
  termination_by n
  decreasing_by
    have hb : 0 < min BLOCK_SIZE n := by
      simp only [BLOCK_SIZE]; omega
    omega

/-! ## `NISTAlgorithms.clear_method` (nist_algorithms.py lines 27-78)

Single pass of zeros over the whole file, flush + fsync, then unlink.
We record the observable behaviour: the list of write calls (each a byte
string) issued on the open file, whether the path was unlinked, and the
boolean return value.  The embedding takes the file's existence and size as
input; I/O is assumed error-free (an I/O error would take the `except`
branch and return `False` with no unlink). -/

structure ClearOutcome where
  writes : List (List Nat)   -- the successive `f.write(...)` payloads
  deleted : Bool             -- whether `path_obj.unlink()` ran
  ret : Bool                 -- the boolean returned
  deriving Repr, DecidableEq

/-- The write payloads of the single zero pass: one block of `0x00` bytes per
loop iteration. -/
def clearWrites (file_size : Nat) : List (List Nat) :=
  (chunkSizes file_size).map (fun c => List.replicate c 0)

/-- `clear_method`: returns `False` when the path does not exist; otherwise
writes the zero blocks, unlinks the file and returns `True`. -/
def clear_method (exists_ : Bool) (file_size : Nat) : ClearOutcome :=
  if exists_ then
    { writes := clearWrites file_size, deleted := true, ret := true }
  else
    { writes := [], deleted := false, ret := false }

/-! ## `NISTAlgorithms._overwrite_pass` (nist_algorithms.py lines 143-193)

One pass writes the file in 64 KiB chunks.  For each chunk, `if pattern:`
selects `pattern * chunk_size` when `pattern` is a non-empty bytes object
(here always a single byte, `b'\x00'` or `b'\xFF'`, both truthy) and
`secrets.token_bytes(chunk_size)` when `pattern` is `None`.  We model the
pattern argument as `Option Nat` (`some b` = the one-byte pattern `b`,
`none` = random) and the entropy source as an oracle
`rand : Nat → Nat → List Nat` mapping the index of the `token_bytes` call
(a global call counter made explicit) and the requested size to the bytes
returned.  The function returns the chunk payloads written and the updated
call counter. -/

def overwriteChunks (pattern : Option Nat) (rand : Nat → Nat → List Nat)
    (n ctr : Nat) : List (List Nat) × Nat :=
  if h : 0 < n then
    match pattern with
    | some b =>
        let r := overwriteChunks pattern rand (n - min BLOCK_SIZE n) ctr
        (List.replicate (min BLOCK_SIZE n) b :: r.1, r.2)
    | none =>
        let r := overwriteChunks pattern rand (n - min BLOCK_SIZE n) (ctr + 1)
        (rand ctr (min BLOCK_SIZE n) :: r.1, r.2)
  else ([], ctr)
  termination_by n
  decreasing_by
    all_goals
      have hb : 0 < min BLOCK_SIZE n := by simp only [BLOCK_SIZE]; omega
      omega

/-! ## `NISTAlgorithms.purge_method` (nist_algorithms.py lines 80-141) -/

/-- The pattern chosen for pass `pass_num` (lines 117-123): pass 1 writes
`b'\x00'`, pass 2 writes `b'\xFF'`, every later pass writes random data. -/
def purgePattern (pass_num : Nat) : Option Nat :=
  if pass_num = 1 then some 0x00
  else if pass_num = 2 then some 0xFF
  else none

/-- The loop `for pass_num in range(1, passes + 1)` of `purge_method`,
threading the entropy call counter: `k` passes remain, the next has number
`p`.  Returns the per-pass chunk traces and the final counter. -/
def purgeLoop (rand : Nat → Nat → List Nat) (S : Nat) :
    Nat → Nat → Nat → List (List (List Nat)) × Nat
  | 0, _, ctr => ([], ctr)
  | k + 1, p, ctr =>
      let r1 := overwriteChunks (purgePattern p) rand S ctr
      let r2 := purgeLoop rand S k (p + 1) r1.2
      (r1.1 :: r2.1, r2.2)

/-- The write traces of all `passes` passes of `purge_method` over a file of
`S` bytes, entropy counter starting at 0. -/
def purge_passes_trace (rand : Nat → Nat → List Nat) (S passes : Nat) :
    List (List (List Nat)) :=
  (purgeLoop rand S passes 1 0).1

/-- `NISTAlgorithms._verify_overwrite` (lines 195-242): reads up to three
1 KiB samples (first; middle when `file_size > 2048`; last when
`file_size > 1024`) and succeeds when at least one sample was read.  An
empty file verifies trivially; `readFails` models an I/O error while
sampling (the `except` branch returns `False`). -/
def samples_verified (S : Nat) : Nat :=
  (if 0 < S then 1 else 0) + (if 2048 < S then 1 else 0) + (if 1024 < S then 1 else 0)

def verify_overwrite (S : Nat) (readFails : Bool) : Bool :=
  if readFails then false
  else if S = 0 then true
  else decide (0 < samples_verified S)

/-- Outcome of `purge_method`: the per-pass write traces, whether the file
was unlinked, and the returned boolean. -/
structure PurgeOutcome where
  passTrace : List (List (List Nat))
  deleted : Bool
  ret : Bool
  deriving Repr, DecidableEq

/-- `purge_method` (lines 80-141).  `ioFailAt = some p` models an I/O error
raised inside `_overwrite_pass` during pass `p` (that pass returns `False`
and `purge_method` returns `False` without unlinking); `readFails` models an
I/O error inside `_verify_overwrite`.  The sampling verification's result is
only logged (line 131), never used: on a verification failure the file is
still unlinked and `True` is returned. -/
def purge_method (exists_ : Bool) (S passes : Nat) (rand : Nat → Nat → List Nat)
    (ioFailAt : Option Nat) (readFails : Bool) : PurgeOutcome :=
  if exists_ then
    match ioFailAt with
    | some p =>
        if 1 ≤ p ∧ p ≤ passes then
          { passTrace := (purgeLoop rand S (p - 1) 1 0).1, deleted := false, ret := false }
        else
          let _verified := verify_overwrite S readFails
          { passTrace := purge_passes_trace rand S passes, deleted := true, ret := true }
    | none =>
        let _verified := verify_overwrite S readFails
        { passTrace := purge_passes_trace rand S passes, deleted := true, ret := true }
  else
    { passTrace := [], deleted := false, ret := false }

/-- A concrete entropy oracle satisfying the hypotheses of
`purge_method_pass_schedule`: draw `i` of size `sz` is `i + 1` followed by
zeros. -/
def wrand (i sz : Nat) : List Nat :=
  if sz = 0 then [] else (i + 1) :: List.replicate (sz - 1) 0

/-! ## `WipingEngine.wipe_selection` (wiping_engine.py lines 192-249)

The per-file work (`self.wipe_file(file_path, method)`, line 232) is
abstracted by its success flag: `outcomes` lists, for each file of the
selection in order, whether its wipe succeeds when attempted.  The shared
cancellation flag `self._cancel_requested` is read once per iteration at the
top of the loop (line 222); `cancelFrom = some k` means the flag is observed
set from iteration `k` on (it was set while file `k` — 0-based — was the
next to start, i.e. after file `k-1` finished), `none` means it is never
set. -/

/-- The loop's cancellation check at iteration `idx`. -/
def cancelObserved (cancelFrom : Option Nat) (idx : Nat) : Bool :=
  match cancelFrom with
  | some k => decide (k ≤ idx)
  | none => false

/-- Result dict of `wipe_selection`: the counters and the list of per-file
results (abstracted to their success flags) appended to `result['files']`. -/
structure SelectionOutcome where
  total_files : Nat
  successful : Nat
  failed : Nat
  skipped : Nat
  files : List Bool
  deriving Repr, DecidableEq

/-- The `for idx, file_path in enumerate(file_list)` loop of
`wipe_selection`: on an observed cancellation, `skipped` is set to
`len(file_list) - idx` and the loop breaks; otherwise the file is wiped, its
result appended, and `successful`/`failed` incremented. -/
def wipe_selectionAux (n : Nat) (cancelFrom : Option Nat) :
    List Bool → Nat → SelectionOutcome
  | [], _ =>
      { total_files := n, successful := 0, failed := 0, skipped := 0, files := [] }
  | o :: rest, idx =>
      if cancelObserved cancelFrom idx then
        { total_files := n, successful := 0, failed := 0,
          skipped := n - idx, files := [] }
      else
        let r := wipe_selectionAux n cancelFrom rest (idx + 1)
        { total_files := n,
          successful := (if o then 1 else 0) + r.successful,
          failed := (if o then 0 else 1) + r.failed,
          skipped := r.skipped,
          files := o :: r.files }

def wipe_selection (outcomes : List Bool) (cancelFrom : Option Nat) :
    SelectionOutcome :=
  wipe_selectionAux outcomes.length cancelFrom outcomes 0

/-! ## `WipingEngine.wipe_folder` (wiping_engine.py lines 100-190)

Same loop shape, but the result dict has *no* `skipped` key: on an observed
cancellation the string `'Operation cancelled by user'` is appended to
`errors` and the loop breaks.  Per-file results are not retained; failures
append an error entry.  `errors` is modelled by its length. -/

structure FolderOutcome where
  total_files : Nat
  successful : Nat
  failed : Nat
  errors : Nat
  deriving Repr, DecidableEq

def wipe_folderAux (n : Nat) (cancelFrom : Option Nat) :
    List Bool → Nat → FolderOutcome
  | [], _ =>
      { total_files := n, successful := 0, failed := 0, errors := 0 }
  | o :: rest, idx =>
      if cancelObserved cancelFrom idx then
        { total_files := n, successful := 0, failed := 0, errors := 1 }
      else
        let r := wipe_folderAux n cancelFrom rest (idx + 1)
        { total_files := n,
          successful := (if o then 1 else 0) + r.successful,
          failed := (if o then 0 else 1) + r.failed,
          errors := (if o then 0 else 1) + r.errors }

def wipe_folder (outcomes : List Bool) (cancelFrom : Option Nat) : FolderOutcome :=
  wipe_folderAux outcomes.length cancelFrom outcomes 0

/-! ## Progress reporting (claim C6)

`clear_method` reports `(bytes_written / file_size) * 100` after each block
(lines 62-64); `_overwrite_pass` reports
`((pass_num - 1) / total_passes + (bytes_written / file_size) / total_passes)
 * 100` (lines 178-183); the `wipe_folder` / `wipe_selection` loops report
`(idx / len(files)) * 100` before each file (lines 157-160 / 226-229) and do
*not* pass the callback on to `wipe_file` (lines 163 / 232).  The Python
float arithmetic is modelled with exact rationals; the properties at stake
(monotonicity, range, the exact final value) hold exactly of the rational
values. -/

/-- Successive values of `bytes_written` after each block of the write loop,
starting from `bw`. -/
def cumWritesAux (S bw : Nat) : List Nat :=
  if h : bw < S then
    (bw + min BLOCK_SIZE (S - bw)) :: cumWritesAux S (bw + min BLOCK_SIZE (S - bw))
  else []
  termination_by S - bw
  decreasing_by
    have hc : 0 < min BLOCK_SIZE (S - bw) := by simp only [BLOCK_SIZE]; omega
    omega

def cumWrites (S : Nat) : List Nat := cumWritesAux S 0

/-- Progress values passed to the callback by `clear_method`'s loop. -/
def clearProgress (S : Nat) : List ℚ :=
  (cumWrites S).map (fun (bw : Nat) => (bw : ℚ) / (S : ℚ) * 100)

/-- Progress values passed to the callback by `_overwrite_pass` number `p`
of `total_passes`. -/
def passProgress (total_passes S p : Nat) : List ℚ :=
  (cumWrites S).map (fun (bw : Nat) =>
    (((p : ℚ) - 1) / (total_passes : ℚ)
      + ((bw : ℚ) / (S : ℚ)) / (total_passes : ℚ)) * 100)

/-- Progress values passed to the callback across all passes of
`purge_method`. -/
def purgeProgress (S passes : Nat) : List ℚ :=
  ((List.range passes).map (fun i => passProgress passes S (i + 1))).flatten

/-- Progress values passed to the callback by the `wipe_folder` and
`wipe_selection` loops when `m` of the `n` files are started (`m = n` for a
run that completes without cancellation).  The per-file callback is not
forwarded, so these are the only values the caller sees. -/
def batchProgress (n m : Nat) : List ℚ :=
  (List.range m).map (fun (idx : Nat) => (idx : ℚ) / (n : ℚ) * 100)

/-! ## `Validator.validate_path` (validation.py lines 19-77)

The filesystem facts about one path are collected in `PathInfo`.  Python's
`pathlib` semantics, which the embedding mirrors: `Path.exists()`,
`Path.is_file()` and `Path.is_dir()` all *follow* symbolic links (they
describe the resolved target), while `Path.is_symlink()` describes the path
itself.  `target` is the kind of the resolved target (`none`: the path, or a
broken link's target, does not exist); `isSymlink` says whether the path
itself is a symlink. -/

inductive TargetKind where
  | file
  | dir
  | other      -- sockets, FIFOs, devices: not a file, not a dir
  deriving Repr, DecidableEq

structure PathInfo where
  hasBadChars : Bool        -- null byte or control character in the path string
  isSymlink : Bool
  target : Option TargetKind
  readable : Bool           -- os.access(path, R_OK)
  writable : Bool           -- os.access(path, W_OK)
  parentWritable : Bool     -- os.access(parent, W_OK)
  deriving Repr, DecidableEq

structure PathValidation where
  valid : Bool
  exists_ : Bool
  accessible : Bool
  type_ : Option String
  errors : List String
  deriving Repr, DecidableEq

/-- `validate_path`: the branch *order* is the source's: bad characters,
then `exists()`, then `is_file()` / `is_dir()` / `is_symlink()` / unknown
(lines 53-64), then the readability check — reached only for the file and
directory types. -/
def validate_path (p : PathInfo) : PathValidation :=
  if p.hasBadChars then
    { valid := false, exists_ := false, accessible := false, type_ := none,
      errors := ["Path contains invalid characters"] }
  else if p.target = none then
    { valid := false, exists_ := false, accessible := false, type_ := none,
      errors := ["Path does not exist"] }
  else if p.target = some .file then
    if p.readable then
      { valid := true, exists_ := true, accessible := true,
        type_ := some "file", errors := [] }
    else
      { valid := false, exists_ := true, accessible := false,
        type_ := some "file", errors := ["Path is not readable"] }
  else if p.target = some .dir then
    if p.readable then
      { valid := true, exists_ := true, accessible := true,
        type_ := some "directory", errors := [] }
    else
      { valid := false, exists_ := true, accessible := false,
        type_ := some "directory", errors := ["Path is not readable"] }
  else if p.isSymlink then
    { valid := false, exists_ := true, accessible := false,
      type_ := some "symlink", errors := ["Symbolic links are not supported"] }
  else
    { valid := false, exists_ := true, accessible := false,
      type_ := some "unknown", errors := ["Unknown path type"] }

/-- A symbolic link whose target is an existing, readable, writable regular
file: `exists()` and `is_file()` follow the link, so `target = some .file`
while `isSymlink = true`. -/
def symlinkToGoodFile : PathInfo :=
  { hasBadChars := false, isSymlink := true, target := some .file,
    readable := true, writable := true, parentWritable := true }

/-! ## `Validator.validate_permissions` (lines 79-124) and
`Validator.validate_selection` (lines 126-201) -/

structure PermValidation where
  can_delete : Bool
  readable : Bool
  writable : Bool
  parent_writable : Bool
  errors : List String
  deriving Repr, DecidableEq

def validate_permissions (p : PathInfo) : PermValidation :=
  if p.target = none then
    { can_delete := false, readable := false, writable := false,
      parent_writable := false, errors := ["Path does not exist"] }
  else
    { can_delete := p.writable && p.parentWritable,
      readable := p.readable, writable := p.writable,
      parent_writable := p.parentWritable,
      errors := (if p.writable then [] else ["File is not writable"])
        ++ (if p.parentWritable then [] else ["Parent directory is not writable"]) }

/-- One path of a selection: the path string and its filesystem facts. -/
structure SelEntry where
  path : String
  info : PathInfo
  deriving Repr, DecidableEq

structure SelectionValidation where
  valid : Bool
  total_files : Nat
  valid_files : List String
  invalid_files : List String
  system_files : List String
  deriving Repr, DecidableEq

/-- The classification loop of `validate_selection` (lines 153-183): per
path, `validate_path` first; then `platform_handler.is_system_file` on the
*lowercased* path; then `validate_permissions`.  Returns (valid_files,
invalid_files, system_files) in input order. -/
def selClassify (isSys : String → Bool) :
    List SelEntry → List String × List String × List String
  | [] => ([], [], [])
  | e :: rest =>
      let r := selClassify isSys rest
      if ¬ (validate_path e.info).valid then
        (r.1, e.path :: r.2.1, r.2.2)
      else if isSys e.path.toLower then
        (r.1, r.2.1, e.path :: r.2.2)
      else if ¬ (validate_permissions e.info).can_delete then
        (r.1, e.path :: r.2.1, r.2.2)
      else
        (e.path :: r.1, r.2.1, r.2.2)

/-- `validate_selection`: empty selections are invalid; otherwise the whole
selection is valid iff no system file was flagged (lines 186-191) and at
least one file survived (lines 193-195). -/
def validate_selection (isSys : String → Bool) (files : List SelEntry) :
    SelectionValidation :=
  if files.isEmpty then
    { valid := false, total_files := 0, valid_files := [],
      invalid_files := [], system_files := [] }
  else
    let r := selClassify isSys files
    { valid := r.2.2.isEmpty && !r.1.isEmpty,
      total_files := files.length,
      valid_files := r.1, invalid_files := r.2.1, system_files := r.2.2 }

/-- An existing regular file that is *not readable*, flagged as a system
file by the platform handler. -/
def unreadableSystemFile : SelEntry :=
  { path := "/etc/shadow",
    info := { hasBadChars := false, isSymlink := false, target := some .file,
              readable := false, writable := true, parentWritable := true } }

/-- An existing, readable (but not writable) system file, for the witness. -/
def readableSystemFile : SelEntry :=
  { path := "/etc/hosts",
    info := { hasBadChars := false, isSymlink := false, target := some .file,
              readable := true, writable := false, parentWritable := false } }

/-! ## `CertificateManager` (certificate.py)

`generate_wipe_certificate` signs `json.dumps(cert_data, sort_keys=True)`
*before* the `signature` and `public_key` fields are added (lines 130-133);
`verify_certificate` pops exactly those two fields and re-serializes the
rest the same way (lines 199-213).  We embed the serialized payload as a
`List Char` built exactly as `json.dumps` (sorted keys, `', '` / `': '`
separators) renders the fixed dict shape of lines 98-128.  String fields are
carried verbatim; the embedding equals the Python output whenever they need
no JSON escaping (no `"`, no `\`, printable ASCII), which the well-formedness
predicate `WFPayload` below captures.  Python floats (`duration`) are carried
opaquely as their rendered numeric token. -/

def rbraceChar : Char := Char.ofNat 125

/-- JSON rendering of a string field (no escaping needed for safe strings). -/
def jstr (s : List Char) : List Char := '"' :: (s ++ ['"'])

def jbool (b : Bool) : List Char :=
  if b then ['t', 'r', 'u', 'e'] else ['f', 'a', 'l', 's', 'e']

def jnull : List Char := ['n', 'u', 'l', 'l']

def joptstr : Option (List Char) → List Char
  | none => jnull
  | some s => jstr s

/-- An optional numeric JSON value: `None` renders as `null`, a float as its
numeric token. -/
def joptnum : Option (List Char) → List Char
  | none => jnull
  | some t => t

/-- Decimal rendering of a natural number, as Python's `json.dump` writes an
`int`. -/
def decRepr (n : Nat) : List Char :=
  if n = 0 then ['0'] else ((Nat.digits 10 n).reverse.map Nat.digitChar)

/-- One element of the certificate's `files` list (lines 124-128). -/
structure FileEntry where
  path : List Char
  success : Bool
  verified : Bool
  deriving Repr, DecidableEq

/-- The signed fields of the certificate (`cert_data` of lines 98-119 before
`signature`/`public_key` are added). -/
structure CertPayload where
  certificate_id : List Char
  timestamp : List Char
  method : List Char
  start_time : Option (List Char)
  end_time : Option (List Char)
  duration : Option (List Char)
  total_files : Nat
  successful : Nat
  failed : Nat
  method_description : List Char
  files : List FileEntry
  deriving Repr, DecidableEq

/-- `json.dumps` of one `files` entry, keys sorted (path, success, verified). -/
def serFile (e : FileEntry) : List Char :=
  ("\x7b\"path\": ").data ++ jstr e.path
    ++ (", \"success\": ").data ++ jbool e.success
    ++ (", \"verified\": ").data ++ jbool e.verified ++ [rbraceChar]

/-- `", ".join` of the rendered entries. -/
def serFilesAux : List FileEntry → List Char
  | [] => []
  | [e] => serFile e
  | e :: e2 :: rest => serFile e ++ (", ").data ++ serFilesAux (e2 :: rest)

/-- `json.dumps` of the `files` array. -/
def serFiles (l : List FileEntry) : List Char := '[' :: (serFilesAux l ++ [']'])

/-- `json.dumps(cert_data, sort_keys=True)` for the payload: top-level keys
in sorted order (certificate_id, compliance, files, operation, results,
timestamp), nested objects' keys sorted likewise. -/
def serCert (c : CertPayload) : List Char :=
  ("\x7b\"certificate_id\": ").data ++ jstr c.certificate_id
    ++ (", \"compliance\": \x7b\"method_description\": ").data ++ jstr c.method_description
    ++ (", \"standard\": \"NIST SP 800-88\"\x7d, \"files\": ").data ++ serFiles c.files
    ++ (", \"operation\": \x7b\"duration\": ").data ++ joptnum c.duration
    ++ (", \"end_time\": ").data ++ joptstr c.end_time
    ++ (", \"method\": ").data ++ jstr c.method
    ++ (", \"start_time\": ").data ++ joptstr c.start_time
    ++ ("\x7d, \"results\": \x7b\"failed\": ").data ++ decRepr c.failed
    ++ (", \"successful\": ").data ++ decRepr c.successful
    ++ (", \"total_files\": ").data ++ decRepr c.total_files
    ++ ("\x7d, \"timestamp\": ").data ++ jstr c.timestamp
    ++ [rbraceChar]

/-- A character that `json.dumps` copies into its output unescaped. -/
def SafeChar (ch : Char) : Prop :=
  ch ≠ '"' ∧ ch ≠ '\\' ∧ 32 ≤ ch.toNat ∧ ch.toNat < 127

instance (ch : Char) : Decidable (SafeChar ch) := by
  unfold SafeChar; infer_instance

def SafeStr (s : List Char) : Prop := ∀ ch ∈ s, SafeChar ch

instance (s : List Char) : Decidable (SafeStr s) := by
  unfold SafeStr; infer_instance

/-- The characters a Python float repr can contain. -/
def numTokChars : List Char := ('0' :: "123456789.+-eE".data)

/-- A rendered numeric token: non-empty, made of numeric-literal characters. -/
def NumTok (t : List Char) : Prop := t ≠ [] ∧ ∀ ch ∈ t, ch ∈ numTokChars

instance (t : List Char) : Decidable (NumTok t) := by
  unfold NumTok; infer_instance

def OptSafe : Option (List Char) → Prop
  | none => True
  | some s => SafeStr s

instance (o : Option (List Char)) : Decidable (OptSafe o) := by
  cases o <;> unfold OptSafe <;> infer_instance

def OptNum : Option (List Char) → Prop
  | none => True
  | some t => NumTok t

instance (o : Option (List Char)) : Decidable (OptNum o) := by
  cases o <;> unfold OptNum <;> infer_instance

/-- The payload's string fields need no JSON escaping and its duration is a
numeric token: under this condition `serCert` is byte-identical to
`json.dumps(·, sort_keys=True)`. -/
def WFPayload (c : CertPayload) : Prop :=
  SafeStr c.certificate_id ∧ SafeStr c.timestamp ∧ SafeStr c.method ∧
  OptSafe c.start_time ∧ OptSafe c.end_time ∧ OptNum c.duration ∧
  SafeStr c.method_description ∧ ∀ e ∈ c.files, SafeStr e.path

instance (c : CertPayload) : Decidable (WFPayload c) := by
  unfold WFPayload; infer_instance

/-! ### Injectivity of the canonical serialization

The mutation half of the certificate round-trip claim needs: two
well-formed payloads with the same `json.dumps(·, sort_keys=True)` rendering
are equal.  The proofs below parse the rendering back, piece by piece: a
shared literal prefix cancels (`lit_strip`), a delimiter character that
cannot occur inside a token splits the stream (`delim_split`), and each
token kind is recovered from its rendering. -/

def lbraceChar : Char := Char.ofNat 123

/-! ### Signing and verification

RSA-PSS over SHA-256 is modelled as an idealized existentially-unforgeable
signature: a signature token records the signing key and the exact message;
`verify` accepts exactly the tokens produced by the matching key over the
same message.  The empty hex signature `""` and the empty PEM `""` are
modelled as `none`. -/

structure SigTok where
  key : Nat
  msg : List Char
  deriving Repr, DecidableEq

/-- `CertificateManager.sign_deletion_log` (lines 150-182): an uninitialized
private key raises `ValueError` *inside* the method's own `try`, and any
other signing failure is likewise caught — either way the empty signature is
returned, never an exception. -/
def sign_deletion_log (private_key : Option Nat) (data : List Char) : Option SigTok :=
  match private_key with
  | none => none
  | some k => some ⟨k, data⟩

/-- The `public_key.verify(...)` primitive of lines 217-225. -/
def rsa_verify (pk : Nat) (sig : SigTok) (msg : List Char) : Bool :=
  decide (sig.key = pk) && decide (sig.msg = msg)

/-- One entry of `operation_results['files']` as `generate_wipe_certificate`
reads it: each key through `.get` with a default (lines 124-128). -/
structure FileInput where
  file : Option (List Char)
  success : Option Bool
  verified : Option Bool
  deriving Repr, DecidableEq

/-- The keys `generate_wipe_certificate` reads from `operation_results`
(lines 98-123), each through `.get` with its default. -/
structure BatchInput where
  method : Option (List Char)
  start_time : Option (List Char)
  end_time : Option (List Char)
  duration : Option (List Char)
  total_files : Option Nat
  successful : Option Nat
  failed : Option Nat
  files : List FileInput
  deriving Repr, DecidableEq

/-- `CertificateManager._get_method_description` (lines 242-248). -/
def get_method_description (m : List Char) : List Char :=
  if m = ("clear").data then
    ("NIST Clear - Single pass overwrite with zeros").data
  else if m = ("purge").data then
    ("NIST Purge - Multi-pass overwrite (DoD 5220.22-M)").data
  else ("Unknown method").data

/-- The `cert_data` dict of lines 98-128: defaults applied, the file list
capped at 1000 entries *before* signing.  Note the two different `method`
defaults: `'unknown'` for the operation block (line 102) and `'clear'` for
the description (line 115). -/
def buildPayload (certId timestamp : List Char) (b : BatchInput) : CertPayload :=
  { certificate_id := certId,
    timestamp := timestamp,
    method := b.method.getD (("unknown").data),
    start_time := b.start_time,
    end_time := b.end_time,
    duration := b.duration,
    total_files := b.total_files.getD 0,
    successful := b.successful.getD 0,
    failed := b.failed.getD 0,
    method_description := get_method_description (b.method.getD (("clear").data)),
    files := (b.files.take 1000).map (fun f =>
      { path := f.file.getD (("unknown").data),
        success := f.success.getD false,
        verified := f.verified.getD false }) }

/-- The certificate JSON object: the signed payload plus the two fields
added after signing (lines 130-133).  `json.dump`/`json.load` of this record
is assumed faithful. -/
structure CertRecord where
  payload : CertPayload
  signature : Option SigTok
  public_key : Option Nat
  deriving Repr, DecidableEq

/-- `generate_wipe_certificate` (lines 84-148), up to the file write (the
write is modelled in `generate_wipe_certificateE` below): builds the
payload, signs `json.dumps(cert_data, sort_keys=True)` *before* `signature`
and `public_key` are added, then attaches both. -/
def generate_wipe_certificate (private_key pubkey : Option Nat)
    (certId timestamp : List Char) (b : BatchInput) : CertRecord :=
  let payload := buildPayload certId timestamp b
  { payload := payload,
    signature := sign_deletion_log private_key (serCert payload),
    public_key := pubkey }

/-- `verify_certificate` (lines 184-234): pops `signature` and `public_key`;
an empty signature or public key fails closed; otherwise the remaining
fields are re-serialized with sorted keys and the signature is checked
against that byte string. -/
def verify_certificate (rec : CertRecord) : Bool :=
  match rec.signature, rec.public_key with
  | some sig, some pk => rsa_verify pk sig (serCert rec.payload)
  | _, _ => false

/-- A concrete batch result for the witnesses. -/
def sampleBatch : BatchInput :=
  { method := some (("clear").data),
    start_time := some (("2025-01-01T00:00:00").data),
    end_time := some (("2025-01-01T00:00:05").data),
    duration := some (("5.0").data),
    total_files := some 1, successful := some 1, failed := some 0,
    files := [{ file := some (("a.txt").data),
                success := some true, verified := some true }] }

def samplePayload : CertPayload :=
  buildPayload (("CERTID01").data) (("2025-01-01T00:00:06").data) sampleBatch

/-- `samplePayload` with a single field changed (`successful`: 1 → 2, a
one-byte change of the serialized certificate). -/
def mutatedPayload : CertPayload :=
  { samplePayload with successful := 2 }

/-! ## Exception behaviour of the core operations (claim C8)

Each operation is embedded as `Except String R`: internal code that can
raise is represented by an explicit exception parameter, and the operation's
own `try/except` determines whether the outer result is `.ok` (the
exception was converted into a result value) or `.error` (it propagated). -/

structure WipeFileResult where
  success : Bool
  error : Option String
  verified : Option Bool
  deriving Repr, DecidableEq

/-- The result dict `wipe_file` builds when no exception occurs
(wiping_engine.py lines 43-87). -/
def wipe_file_result (exists_ cancel_requested : Bool) (method : String)
    (methodOK verifyOK : Bool) : WipeFileResult :=
  if ¬ exists_ then
    { success := false, error := some "File does not exist", verified := none }
  else if cancel_requested then
    { success := false, error := some "Operation cancelled", verified := none }
  else if method = "clear" ∨ method = "purge" then
    { success := methodOK, error := none,
      verified := if methodOK then some verifyOK else none }
  else
    { success := false, error := some ("Unknown method: " ++ method),
      verified := none }

/-- `wipe_file` (lines 30-98): the whole body sits in `try/except
Exception`, which stores the exception message in `result['error']`; the
`finally` block stamps the times and the result is returned — never an
exception. -/
def wipe_fileE (exists_ cancel_requested : Bool) (method : String)
    (methodOK verifyOK : Bool) (exn : Option String) :
    Except String WipeFileResult :=
  match exn with
  | some e => .ok { success := false, error := some e, verified := none }
  | none => .ok (wipe_file_result exists_ cancel_requested method methodOK verifyOK)

/-- `wipe_folder` (lines 100-190): same catch-all; an exception is appended
to `errors` and the partial result returned. -/
def wipe_folderE (outcomes : List Bool) (cancelFrom : Option Nat)
    (exn : Option String) : Except String FolderOutcome :=
  match exn with
  | some _ => .ok { total_files := 0, successful := 0, failed := 0, errors := 1 }
  | none => .ok (wipe_folder outcomes cancelFrom)

/-- `wipe_selection` (lines 192-249): same catch-all. -/
def wipe_selectionE (outcomes : List Bool) (cancelFrom : Option Nat)
    (exn : Option String) : Except String SelectionOutcome :=
  match exn with
  | some _ => .ok { total_files := outcomes.length, successful := 0,
                    failed := 0, skipped := 0, files := [] }
  | none => .ok (wipe_selection outcomes cancelFrom)

/-- `verify_certificate` (lines 184-234): every failure path — unreadable
file, bad JSON, bad key, bad signature — returns `False`. -/
def verify_certificateE (parse_fails : Bool) (rec : CertRecord) :
    Except String Bool :=
  .ok (if parse_fails then false else verify_certificate rec)

/-- `generate_wipe_certificate` (lines 84-148): an exception while writing
the certificate file hits `except Exception: ... raise` (lines 146-148) and
*propagates to the caller*. -/
def generate_wipe_certificateE (private_key pubkey : Option Nat)
    (certId ts : List Char) (b : BatchInput) (writeErr : Option String) :
    Except String CertRecord :=
  match writeErr with
  | some e => .error e
  | none => .ok (generate_wipe_certificate private_key pubkey certId ts b)

/-! ## Theorems -/

theorem chunkSizes_zero : chunkSizes 0 = [] := by
  rw [chunkSizes]; simp

theorem chunkSizes_pos (n : Nat) (h : 0 < n) :
    chunkSizes n = min BLOCK_SIZE n :: chunkSizes (n - min BLOCK_SIZE n) := by
  rw [chunkSizes]; simp [h]

/-- Every chunk the loop writes has positive size. -/
theorem chunkSizes_mem_pos (n : Nat) : ∀ c ∈ chunkSizes n, 0 < c := by
  induction n using Nat.strong_induction_on with
  | _ n ih =>
    intro c hc
    by_cases h : 0 < n
    · rw [chunkSizes_pos n h, List.mem_cons] at hc
      rcases hc with hc | hc
      · subst hc; simp only [BLOCK_SIZE]; omega
      · have hb : 0 < min BLOCK_SIZE n := by simp only [BLOCK_SIZE]; omega
        exact ih (n - min BLOCK_SIZE n) (by omega) c hc
    · rw [show n = 0 by omega, chunkSizes_zero] at hc
      simp at hc

/-- The chunk sizes sum to the total byte count: the loop writes exactly
`file_size` bytes. -/
theorem chunkSizes_sum (n : Nat) : (chunkSizes n).sum = n := by
  induction n using Nat.strong_induction_on with
  | _ n ih =>
    by_cases h : 0 < n
    · rw [chunkSizes_pos n h]
      have hb : 0 < min BLOCK_SIZE n := by simp only [BLOCK_SIZE]; omega
      have := ih (n - min BLOCK_SIZE n) (by omega)
      rw [List.sum_cons, this]
      omega
    · rw [show n = 0 by omega, chunkSizes_zero]; rfl

/-- The loop performs exactly `⌈n / BLOCK_SIZE⌉` writes. -/
theorem chunkSizes_length (n : Nat) :
    (chunkSizes n).length = (n + BLOCK_SIZE - 1) / BLOCK_SIZE := by
  induction n using Nat.strong_induction_on with
  | _ n ih =>
    by_cases h : 0 < n
    · rw [chunkSizes_pos n h]
      have hb : 0 < min BLOCK_SIZE n := by simp only [BLOCK_SIZE]; omega
      rw [List.length_cons, ih (n - min BLOCK_SIZE n) (by omega)]
      by_cases hle : n ≤ BLOCK_SIZE
      · have h1 : min BLOCK_SIZE n = n := by omega
        rw [h1]
        have h2 : n - n + BLOCK_SIZE - 1 = BLOCK_SIZE - 1 := by omega
        rw [h2]
        have h3 : (BLOCK_SIZE - 1) / BLOCK_SIZE = 0 :=
          Nat.div_eq_of_lt (by simp only [BLOCK_SIZE]; omega)
        rw [h3]
        have h4 : n + BLOCK_SIZE - 1 = (n - 1) + BLOCK_SIZE := by omega
        rw [h4, Nat.add_div_right _ (by norm_num [BLOCK_SIZE] : 0 < BLOCK_SIZE)]
        have h5 : (n - 1) / BLOCK_SIZE = 0 :=
          Nat.div_eq_of_lt (by simp only [BLOCK_SIZE] at *; omega)
        omega
      · have h1 : min BLOCK_SIZE n = BLOCK_SIZE := by omega
        rw [h1]
        have h4 : n + BLOCK_SIZE - 1 = (n - BLOCK_SIZE + BLOCK_SIZE - 1) + BLOCK_SIZE := by
          simp only [BLOCK_SIZE] at *; omega
        rw [h4, Nat.add_div_right _ (by norm_num [BLOCK_SIZE] : 0 < BLOCK_SIZE)]
    · rw [show n = 0 by omega, chunkSizes_zero]
      simp only [List.length_nil]
      rw [Nat.div_eq_of_lt (by simp only [BLOCK_SIZE]; omega)]

/-- Writing one block of the fixed byte `b` per chunk and concatenating the
blocks yields exactly `n` copies of `b`. -/
theorem flatten_replicate_chunks (n b : Nat) :
    ((chunkSizes n).map (fun c => List.replicate c b)).flatten = List.replicate n b := by
  induction n using Nat.strong_induction_on with
  | _ n ih =>
    by_cases hn : 0 < n
    · rw [chunkSizes_pos n hn]
      have hb : 0 < min BLOCK_SIZE n := by simp only [BLOCK_SIZE]; omega
      rw [List.map_cons, List.flatten_cons, ih (n - min BLOCK_SIZE n) (by omega)]
      rw [← List.replicate_add]
      congr 1
      omega
    · rw [show n = 0 by omega, chunkSizes_zero]; rfl

/-- **C1** For every file of size S bytes, if `clear_method` returns True,
then afterwards the path no longer exists (the file was unlinked, so a
subsequent existence check fails), and the overwrite before deletion
consisted of exactly `⌈S / 65536⌉` block writes whose concatenation is
exactly `S` zero (0x00) bytes, written sequentially from offset 0. -/
theorem clear_method_correct (exists_ : Bool) (S : Nat)
    (h : (clear_method exists_ S).ret = true) :
    (clear_method exists_ S).deleted = true ∧
    (clear_method exists_ S).writes.length = (S + BLOCK_SIZE - 1) / BLOCK_SIZE ∧
    (clear_method exists_ S).writes.flatten = List.replicate S 0 := by
  cases exists_ with
  | false => simp [clear_method] at h
  | true =>
    refine ⟨rfl, ?_, ?_⟩
    · simp only [clear_method, if_pos, clearWrites, List.length_map]
      exact chunkSizes_length S
    · simp only [clear_method, if_pos, clearWrites]
      exact flatten_replicate_chunks S 0

/-- Witness for `clear_method_correct` at a concrete input. -/
theorem clear_method_correct_witness :
    (clear_method true 3).deleted = true ∧
    (clear_method true 3).writes.length = (3 + BLOCK_SIZE - 1) / BLOCK_SIZE ∧
    (clear_method true 3).writes.flatten = List.replicate 3 0 :=
  clear_method_correct true 3 (by decide)

/-- A fixed-byte pass writes the same blocks as the zero pass of
`clear_method` (with byte `b`) and consumes no entropy. -/
theorem overwriteChunks_some (b : Nat) (rand : Nat → Nat → List Nat) (n ctr : Nat) :
    overwriteChunks (some b) rand n ctr
      = ((chunkSizes n).map (fun c => List.replicate c b), ctr) := by
  induction n using Nat.strong_induction_on with
  | _ n ih =>
    by_cases hn : 0 < n
    · have hb : 0 < min BLOCK_SIZE n := by simp only [BLOCK_SIZE]; omega
      rw [overwriteChunks, chunkSizes_pos n hn]
      simp only [hn, dif_pos]
      rw [ih (n - min BLOCK_SIZE n) (by omega)]
      simp
    · rw [show n = 0 by omega, overwriteChunks, chunkSizes_zero]
      simp

/-- A random pass consumes one entropy draw per block. -/
theorem overwriteChunks_none_ctr (rand : Nat → Nat → List Nat) (n ctr : Nat) :
    (overwriteChunks none rand n ctr).2 = ctr + (chunkSizes n).length := by
  induction n using Nat.strong_induction_on generalizing ctr with
  | _ n ih =>
    by_cases hn : 0 < n
    · have hb : 0 < min BLOCK_SIZE n := by simp only [BLOCK_SIZE]; omega
      rw [overwriteChunks, chunkSizes_pos n hn]
      simp only [hn, dif_pos]
      rw [ih (n - min BLOCK_SIZE n) (by omega)]
      simp only [List.length_cons]
      omega
    · rw [show n = 0 by omega, overwriteChunks, chunkSizes_zero]
      simp

/-- The first block of a random pass is the oracle's draw at the current
counter, of the first chunk's size. -/
theorem overwriteChunks_none_head (rand : Nat → Nat → List Nat) (n ctr : Nat)
    (hn : 0 < n) :
    ∃ rest, (overwriteChunks none rand n ctr).1
      = rand ctr (min BLOCK_SIZE n) :: rest := by
  rw [overwriteChunks]
  simp only [hn, dif_pos]
  exact ⟨_, rfl⟩

/-- The write loop always produces at least one chunk for a non-empty file. -/
theorem chunkSizes_length_pos (S : Nat) (hS : 0 < S) :
    0 < (chunkSizes S).length := by
  rw [chunkSizes_pos S hS]
  simp

/-- Concrete shape of the 7-pass purge trace: zero pass, one-fill pass, then
five random passes whose entropy counters start at 0, m, 2m, 3m, 4m where
`m` is the number of blocks per pass. -/
theorem purge_trace_7 (rand : Nat → Nat → List Nat) (S : Nat) :
    purge_passes_trace rand S 7 =
      [(chunkSizes S).map (fun c => List.replicate c 0x00),
       (chunkSizes S).map (fun c => List.replicate c 0xFF),
       (overwriteChunks none rand S 0).1,
       (overwriteChunks none rand S (chunkSizes S).length).1,
       (overwriteChunks none rand S ((chunkSizes S).length + (chunkSizes S).length)).1,
       (overwriteChunks none rand S
         ((chunkSizes S).length + (chunkSizes S).length + (chunkSizes S).length)).1,
       (overwriteChunks none rand S
         ((chunkSizes S).length + (chunkSizes S).length + (chunkSizes S).length
           + (chunkSizes S).length)).1] := by
  simp [purge_passes_trace, purgeLoop, purgePattern, overwriteChunks_some,
    overwriteChunks_none_ctr]

/-- Two random passes over the same file started at different entropy
counters differ byte-for-byte, provided distinct oracle draws differ. -/
theorem rand_pass_flatten_ne (rand : Nat → Nat → List Nat) (S : Nat) (hS : 0 < S)
    (hlen : ∀ i sz, 0 < sz → (rand i sz).length = sz)
    (hinj : ∀ i j sz, 0 < sz → i ≠ j → rand i sz ≠ rand j sz)
    (c1 c2 : Nat) (hne : c1 ≠ c2) :
    (overwriteChunks none rand S c1).1.flatten
      ≠ (overwriteChunks none rand S c2).1.flatten := by
  obtain ⟨r1, h1⟩ := overwriteChunks_none_head rand S c1 hS
  obtain ⟨r2, h2⟩ := overwriteChunks_none_head rand S c2 hS
  have hs0 : 0 < min BLOCK_SIZE S := by simp only [BLOCK_SIZE]; omega
  rw [h1, h2, List.flatten_cons, List.flatten_cons]
  intro heq
  have hl : (rand c1 (min BLOCK_SIZE S)).length
      = (rand c2 (min BLOCK_SIZE S)).length := by
    rw [hlen _ _ hs0, hlen _ _ hs0]
  exact hinj c1 c2 (min BLOCK_SIZE S) hs0 hne (List.append_inj_left heq hl)

/-- A random pass is not a constant-byte fill, provided oracle draws of at
least two bytes are never constant. -/
theorem rand_pass_flatten_ne_const (rand : Nat → Nat → List Nat) (S : Nat) (hS : 2 ≤ S)
    (hlen : ∀ i sz, 0 < sz → (rand i sz).length = sz)
    (hnc : ∀ i sz, 2 ≤ sz → ∀ c, rand i sz ≠ List.replicate sz c)
    (c1 c : Nat) :
    (overwriteChunks none rand S c1).1.flatten ≠ List.replicate S c := by
  obtain ⟨r1, h1⟩ := overwriteChunks_none_head rand S c1 (by omega)
  have hs0 : 2 ≤ min BLOCK_SIZE S := by simp only [BLOCK_SIZE]; omega
  have hs0' : min BLOCK_SIZE S ≤ S := by omega
  rw [h1, List.flatten_cons]
  intro heq
  have htake := congrArg (List.take (min BLOCK_SIZE S)) heq
  rw [List.take_append_of_le_length (by rw [hlen _ _ (by omega)]),
      List.take_replicate, List.take_of_length_le (by rw [hlen _ _ (by omega)])] at htake
  have hmin : min (min BLOCK_SIZE S) S = min BLOCK_SIZE S := by omega
  rw [hmin] at htake
  exact hnc c1 (min BLOCK_SIZE S) hs0 c htake

/-- **C2** For `purge_method(path, passes=7)` (no I/O failure, any sampling
outcome): the bytes written in pass 1 are all 0x00, the bytes written in
pass 2 are all 0xFF, and each of passes 3 through 7 is filled with fresh
entropy draws, one per block — so, under the overwhelming-probability
properties of a cryptographically secure source (distinct draws differ and a
draw of ≥ 2 bytes is not a constant byte), no pass 3-7 is a constant-byte
fill and no two of them repeat each other byte-for-byte.  `2 ≤ S` excludes
degenerate files on which a one-byte random draw is trivially constant. -/
theorem purge_method_pass_schedule (rand : Nat → Nat → List Nat) (S : Nat)
    (readFails : Bool) (hS : 2 ≤ S)
    (hlen : ∀ i sz, 0 < sz → (rand i sz).length = sz)
    (hinj : ∀ i j sz, 0 < sz → i ≠ j → rand i sz ≠ rand j sz)
    (hnc : ∀ i sz, 2 ≤ sz → ∀ c, rand i sz ≠ List.replicate sz c) :
    (purge_method true S 7 rand none readFails).passTrace.length = 7 ∧
    ((purge_method true S 7 rand none readFails).passTrace.getD 0 []).flatten
      = List.replicate S 0x00 ∧
    ((purge_method true S 7 rand none readFails).passTrace.getD 1 []).flatten
      = List.replicate S 0xFF ∧
    (∀ i j, 2 ≤ i → i < j → j < 7 →
      ((purge_method true S 7 rand none readFails).passTrace.getD i []).flatten
        ≠ ((purge_method true S 7 rand none readFails).passTrace.getD j []).flatten) ∧
    (∀ i, 2 ≤ i → i < 7 → ∀ c,
      ((purge_method true S 7 rand none readFails).passTrace.getD i []).flatten
        ≠ List.replicate S c) := by
  have htrace : (purge_method true S 7 rand none readFails).passTrace
      = purge_passes_trace rand S 7 := rfl
  have hm : 0 < (chunkSizes S).length := chunkSizes_length_pos S (by omega)
  rw [htrace, purge_trace_7]
  refine ⟨by simp, by simp [flatten_replicate_chunks], by simp [flatten_replicate_chunks],
    ?_, ?_⟩
  · intro i j hi hij hj
    have hne : ∀ c1 c2 : Nat, c1 ≠ c2 →
        (overwriteChunks none rand S c1).1.flatten
          ≠ (overwriteChunks none rand S c2).1.flatten :=
      fun c1 c2 h => rand_pass_flatten_ne rand S (by omega) hlen hinj c1 c2 h
    interval_cases j <;> interval_cases i <;>
      simp only [List.getD_cons_zero, List.getD_cons_succ] <;>
      exact hne _ _ (by omega)
  · intro i hi hij c
    have hnec : ∀ c1 : Nat, (overwriteChunks none rand S c1).1.flatten
        ≠ List.replicate S c :=
      fun c1 => rand_pass_flatten_ne_const rand S hS hlen hnc c1 c
    interval_cases i <;>
      simp only [List.getD_cons_zero, List.getD_cons_succ] <;>
      exact hnec _

/-- Witness for `purge_method_pass_schedule` at a 2-byte file. -/
theorem purge_method_pass_schedule_witness :
    (purge_method true 2 7 wrand none false).passTrace.length = 7 ∧
    ((purge_method true 2 7 wrand none false).passTrace.getD 0 []).flatten
      = List.replicate 2 0x00 ∧
    ((purge_method true 2 7 wrand none false).passTrace.getD 1 []).flatten
      = List.replicate 2 0xFF ∧
    ((purge_method true 2 7 wrand none false).passTrace.getD 2 []).flatten
      ≠ ((purge_method true 2 7 wrand none false).passTrace.getD 3 []).flatten ∧
    ((purge_method true 2 7 wrand none false).passTrace.getD 2 []).flatten
      ≠ List.replicate 2 0x41 := by
  have hlen : ∀ i sz, 0 < sz → (wrand i sz).length = sz := by
    intro i sz hsz
    simp only [wrand, if_neg (by omega : ¬ sz = 0), List.length_cons,
      List.length_replicate]
    omega
  have hinj : ∀ i j sz, 0 < sz → i ≠ j → wrand i sz ≠ wrand j sz := by
    intro i j sz hsz hne heq
    simp only [wrand, if_neg (by omega : ¬ sz = 0), List.cons.injEq] at heq
    omega
  have hnc : ∀ i sz, 2 ≤ sz → ∀ c, wrand i sz ≠ List.replicate sz c := by
    intro i sz hsz c heq
    have h2 : sz = (sz - 2) + 1 + 1 := by omega
    rw [h2] at heq
    simp only [wrand, if_neg (by omega : ¬ (sz - 2) + 1 + 1 = 0),
      Nat.add_sub_cancel, List.replicate_succ, List.cons.injEq] at heq
    obtain ⟨h3, h4, -⟩ := heq
    omega
  have h := purge_method_pass_schedule wrand 2 false (by omega) hlen hinj hnc
  exact ⟨h.1, h.2.1, h.2.2.1, h.2.2.2.1 2 3 (by omega) (by omega) (by omega),
    h.2.2.2.2 2 (by omega) (by omega) 0x41⟩

/-- **C7** In `purge_method`, after all overwrite passes complete (no I/O
failure), a failure of the sampling verification step does not abort
deletion: sampling with a failing read yields verification `False`, yet the
file is unlinked and `purge_method` returns `True`, and the whole outcome is
identical whatever the verification outcome was. -/
theorem purge_method_verification_no_abort (S passes : Nat)
    (rand : Nat → Nat → List Nat) (readFails : Bool) :
    verify_overwrite S true = false ∧
    (purge_method true S passes rand none readFails).deleted = true ∧
    (purge_method true S passes rand none readFails).ret = true ∧
    purge_method true S passes rand none readFails
      = purge_method true S passes rand none (!readFails) :=
  ⟨rfl, rfl, rfl, rfl⟩

/-- **C5, counterexample** The claim quantifies over folder wipes as well,
but `wipe_folder`'s result has no `skipped` count (the report layer reads it
as 0): cancelling a 1-file folder wipe before its first file leaves
`successful = failed = 0`, so `skipped(=0) + successful + failed ≠ n`. -/
theorem wipe_folder_cancellation_counterexample :
    (wipe_folder [true] (some 0)).successful = 0 ∧
    (wipe_folder [true] (some 0)).failed = 0 ∧
    (wipe_folder [true] (some 0)).total_files = 1 ∧
    0 + (wipe_folder [true] (some 0)).successful + (wipe_folder [true] (some 0)).failed
      ≠ (wipe_folder [true] (some 0)).total_files := by
  decide

theorem wipe_selectionAux_cons_cancel (n : Nat) (cf : Option Nat) (o : Bool)
    (rest : List Bool) (idx : Nat) (h : cancelObserved cf idx = true) :
    wipe_selectionAux n cf (o :: rest) idx
      = { total_files := n, successful := 0, failed := 0,
          skipped := n - idx, files := [] } := by
  simp [wipe_selectionAux, h]

theorem wipe_selectionAux_cons_go (n : Nat) (cf : Option Nat) (o : Bool)
    (rest : List Bool) (idx : Nat) (h : cancelObserved cf idx = false) :
    wipe_selectionAux n cf (o :: rest) idx
      = { total_files := n,
          successful := (if o then 1 else 0)
            + (wipe_selectionAux n cf rest (idx + 1)).successful,
          failed := (if o then 0 else 1)
            + (wipe_selectionAux n cf rest (idx + 1)).failed,
          skipped := (wipe_selectionAux n cf rest (idx + 1)).skipped,
          files := o :: (wipe_selectionAux n cf rest (idx + 1)).files } := by
  simp [wipe_selectionAux, h]

/-- In `wipe_selectionAux` starting at index `idx ≤ k`, the loop processes
exactly the first `k - idx` remaining files (or all of them), keeps their
terminal results, and counts the rest as skipped. -/
theorem wipe_selectionAux_cancel (n k : Nat) :
    ∀ (os : List Bool) (idx : Nat), idx ≤ k →
    (wipe_selectionAux n (some k) os idx).files = os.take (k - idx) ∧
    (wipe_selectionAux n (some k) os idx).successful
        + (wipe_selectionAux n (some k) os idx).failed
      = (os.take (k - idx)).length ∧
    (wipe_selectionAux n (some k) os idx).skipped
      = (if os.length ≤ k - idx then 0 else n - k) ∧
    (wipe_selectionAux n (some k) os idx).total_files = n := by
  intro os
  induction os with
  | nil =>
      intro idx _
      simp [wipe_selectionAux]
  | cons o rest ih =>
      intro idx hidx
      by_cases hk : k ≤ idx
      · have hkk : k = idx := by omega
        have hco : cancelObserved (some k) idx = true := by
          simp [cancelObserved]; omega
        rw [wipe_selectionAux_cons_cancel n (some k) o rest idx hco]
        have h0 : k - idx = 0 := by omega
        refine ⟨by rw [h0, List.take_zero], by rw [h0, List.take_zero]; rfl, ?_, rfl⟩
        rw [h0, List.length_cons, if_neg (by omega), hkk]
      · have hlt : idx < k := by omega
        have hco : cancelObserved (some k) idx = false := by
          simp [cancelObserved]; omega
        obtain ⟨h1, h2, h3, h4⟩ := ih (idx + 1) (by omega)
        rw [wipe_selectionAux_cons_go n (some k) o rest idx hco]
        have htake : (o :: rest).take (k - idx) = o :: rest.take (k - (idx + 1)) := by
          rw [show k - idx = (k - (idx + 1)) + 1 by omega, List.take_succ_cons]
        refine ⟨?_, ?_, ?_, rfl⟩
        · rw [htake]
          simp only [List.cons.injEq]
          exact ⟨trivial, h1⟩
        · show (if o then 1 else 0) + _ + ((if o then 0 else 1) + _) = _
          rw [htake, List.length_cons]
          cases o
          · simp only [Bool.false_eq_true, if_false]
            omega
          · simp only [if_true]
            omega
        · show (wipe_selectionAux n (some k) rest (idx + 1)).skipped = _
          rw [List.length_cons, h3]
          by_cases hc : rest.length ≤ k - (idx + 1)
          · rw [if_pos hc, if_pos (by omega)]
          · rw [if_neg hc, if_neg (by omega)]

/-- **C5, amended** For a selection wipe over `n` files, if the cancellation
flag is observed at iteration `k` (`k ≤ n`, i.e. after the first `k` files
were processed), then files `1..k` each have a terminal result — exactly
their individual outcomes, successes and failures — files `k+1..n` are
counted as skipped (never as failed), and
`skipped + successful + failed = n`.  (`wipe_folder` reports no skipped
count; the claim holds for `wipe_selection` only.) -/
theorem wipe_selection_cancellation (outcomes : List Bool) (k : Nat)
    (hk : k ≤ outcomes.length) :
    (wipe_selection outcomes (some k)).files = outcomes.take k ∧
    (wipe_selection outcomes (some k)).successful
        + (wipe_selection outcomes (some k)).failed = k ∧
    (wipe_selection outcomes (some k)).skipped = outcomes.length - k ∧
    (wipe_selection outcomes (some k)).skipped
        + (wipe_selection outcomes (some k)).successful
        + (wipe_selection outcomes (some k)).failed
      = outcomes.length := by
  have h := wipe_selectionAux_cancel outcomes.length k outcomes 0 (by omega)
  simp only [Nat.sub_zero] at h
  have hlen : (outcomes.take k).length = k := by
    rw [List.length_take]; omega
  simp only [wipe_selection]
  refine ⟨h.1, by rw [h.2.1, hlen], ?_, ?_⟩
  · rw [h.2.2.1]
    by_cases hc : outcomes.length ≤ k
    · rw [if_pos hc]; omega
    · rw [if_neg hc]
  · have h2 := h.2.1
    have h3 := h.2.2.1
    rw [hlen] at h2
    by_cases hc : outcomes.length ≤ k
    · rw [if_pos hc] at h3; omega
    · rw [if_neg hc] at h3; omega

/-- Witness for `wipe_selection_cancellation`: three files, flag observed at
iteration 2. -/
theorem wipe_selection_cancellation_witness :
    (wipe_selection [true, false, true] (some 2)).files = [true, false] ∧
    (wipe_selection [true, false, true] (some 2)).successful
        + (wipe_selection [true, false, true] (some 2)).failed = 2 ∧
    (wipe_selection [true, false, true] (some 2)).skipped = 3 - 2 ∧
    (wipe_selection [true, false, true] (some 2)).skipped
        + (wipe_selection [true, false, true] (some 2)).successful
        + (wipe_selection [true, false, true] (some 2)).failed = 3 := by
  have h := wipe_selection_cancellation [true, false, true] 2 (by decide)
  exact ⟨h.1, h.2.1, h.2.2.1, h.2.2.2⟩

theorem chain'_of_chain {α : Type} {R : α → α → Prop} {a : α} {l : List α}
    (h : List.Chain R a l) : l.Chain' R := by
  cases l with
  | nil => trivial
  | cons b t => exact (List.chain_cons.mp h).2

theorem cumWritesAux_chain (S : Nat) :
    ∀ bw, List.Chain (· < ·) bw (cumWritesAux S bw) := by
  have main : ∀ fuel bw, S - bw ≤ fuel → List.Chain (· < ·) bw (cumWritesAux S bw) := by
    intro fuel
    induction fuel with
    | zero =>
        intro bw h
        rw [cumWritesAux, dif_neg (by omega)]
        exact List.Chain.nil
    | succ f ih =>
        intro bw h
        by_cases hlt : bw < S
        · rw [cumWritesAux, dif_pos hlt]
          have hc : 0 < min BLOCK_SIZE (S - bw) := by simp only [BLOCK_SIZE]; omega
          exact List.Chain.cons (by omega) (ih _ (by omega))
        · rw [cumWritesAux, dif_neg hlt]
          exact List.Chain.nil
  exact fun bw => main (S - bw) bw le_rfl

theorem cumWritesAux_mem_le (S : Nat) :
    ∀ bw, ∀ x ∈ cumWritesAux S bw, x ≤ S := by
  have main : ∀ fuel bw, S - bw ≤ fuel → ∀ x ∈ cumWritesAux S bw, x ≤ S := by
    intro fuel
    induction fuel with
    | zero =>
        intro bw h x hx
        rw [cumWritesAux, dif_neg (by omega)] at hx
        simp at hx
    | succ f ih =>
        intro bw h x hx
        by_cases hlt : bw < S
        · rw [cumWritesAux, dif_pos hlt, List.mem_cons] at hx
          have hc : min BLOCK_SIZE (S - bw) ≤ S - bw := by omega
          rcases hx with hx | hx
          · omega
          · exact ih _ (by
              have hc0 : 0 < min BLOCK_SIZE (S - bw) := by
                simp only [BLOCK_SIZE]; omega
              omega) x hx
        · rw [cumWritesAux, dif_neg hlt] at hx
          simp at hx
  exact fun bw => main (S - bw) bw le_rfl

theorem cumWritesAux_getLast (S : Nat) :
    ∀ bw, bw < S → (cumWritesAux S bw).getLast? = some S := by
  have main : ∀ fuel bw, S - bw ≤ fuel → bw < S →
      (cumWritesAux S bw).getLast? = some S := by
    intro fuel
    induction fuel with
    | zero => intro bw h hlt; omega
    | succ f ih =>
        intro bw h hlt
        rw [cumWritesAux, dif_pos hlt]
        have hcle : min BLOCK_SIZE (S - bw) ≤ S - bw := by omega
        have hc0 : 0 < min BLOCK_SIZE (S - bw) := by simp only [BLOCK_SIZE]; omega
        by_cases h2 : bw + min BLOCK_SIZE (S - bw) < S
        · have hrec := ih (bw + min BLOCK_SIZE (S - bw)) (by omega) h2
          cases hrest : cumWritesAux S (bw + min BLOCK_SIZE (S - bw)) with
          | nil => rw [hrest] at hrec; simp at hrec
          | cons y ys =>
              rw [hrest] at hrec
              rw [List.getLast?_cons_cons]
              exact hrec
        · have hbc : bw + min BLOCK_SIZE (S - bw) = S := by omega
          rw [cumWritesAux, dif_neg h2, hbc]
          rfl
  exact fun bw => main (S - bw) bw le_rfl

theorem cumWrites_chain' (S : Nat) : List.Chain' (· < ·) (cumWrites S) :=
  chain'_of_chain (cumWritesAux_chain S 0)

theorem cumWrites_getLast (S : Nat) (hS : 0 < S) :
    (cumWrites S).getLast? = some S :=
  cumWritesAux_getLast S 0 hS

theorem cumWrites_mem_le (S : Nat) : ∀ x ∈ cumWrites S, x ≤ S :=
  cumWritesAux_mem_le S 0

theorem cumWrites_ne_nil (S : Nat) (hS : 0 < S) : cumWrites S ≠ [] := by
  rw [cumWrites, cumWritesAux, dif_pos hS]
  exact List.cons_ne_nil _ _

theorem clearProgress_chain' (S : Nat) : (clearProgress S).Chain' (· ≤ ·) := by
  rw [clearProgress, List.chain'_map]
  refine (cumWrites_chain' S).imp ?_
  intro a b hab
  have h1 : (a : ℚ) ≤ (b : ℚ) := by exact_mod_cast hab.le
  have h2 : (0:ℚ) ≤ (S:ℚ) := by positivity
  exact mul_le_mul_of_nonneg_right (div_le_div_of_nonneg_right h1 h2) (by norm_num)

theorem clearProgress_mem_bounds (S : Nat) (hS : 0 < S) :
    ∀ y ∈ clearProgress S, 0 ≤ y ∧ y ≤ 100 := by
  intro y hy
  rw [clearProgress, List.mem_map] at hy
  obtain ⟨bw, hbw, rfl⟩ := hy
  have hbwS : bw ≤ S := cumWrites_mem_le S bw hbw
  have hS0 : (0:ℚ) < (S:ℚ) := by exact_mod_cast hS
  refine ⟨by positivity, ?_⟩
  have hfr : (bw:ℚ)/(S:ℚ) ≤ 1 := by
    rw [div_le_one hS0]; exact_mod_cast hbwS
  calc (bw:ℚ)/(S:ℚ) * 100 ≤ 1 * 100 := mul_le_mul_of_nonneg_right hfr (by norm_num)
  _ = 100 := by norm_num

theorem clearProgress_getLast (S : Nat) (hS : 0 < S) :
    (clearProgress S).getLast? = some 100 := by
  rw [clearProgress, List.getLast?_map, cumWrites_getLast S hS]
  have hSne : (S:ℚ) ≠ 0 := by
    exact_mod_cast Nat.pos_iff_ne_zero.mp hS
  simp [div_self hSne]

theorem passProgress_ne_nil (N S p : Nat) (hS : 0 < S) :
    passProgress N S p ≠ [] := by
  rw [passProgress]
  intro h
  exact cumWrites_ne_nil S hS (List.map_eq_nil_iff.mp h)

theorem passProgress_chain' (N S p : Nat) :
    (passProgress N S p).Chain' (· ≤ ·) := by
  rw [passProgress, List.chain'_map]
  refine (cumWrites_chain' S).imp ?_
  intro a b hab
  have h1 : (a : ℚ) ≤ (b : ℚ) := by exact_mod_cast hab.le
  have h2 : (0:ℚ) ≤ (S:ℚ) := by positivity
  have h3 : (0:ℚ) ≤ (N:ℚ) := by positivity
  exact mul_le_mul_of_nonneg_right
    (add_le_add_left
      (div_le_div_of_nonneg_right (div_le_div_of_nonneg_right h1 h2) h3) _)
    (by norm_num)

theorem passProgress_mem_bounds (N S p : Nat) (hS : 0 < S) :
    ∀ y ∈ passProgress N S p,
      ((p : ℚ) - 1) / (N : ℚ) * 100 ≤ y ∧ y ≤ (p : ℚ) / (N : ℚ) * 100 := by
  intro y hy
  rw [passProgress, List.mem_map] at hy
  obtain ⟨bw, hbw, rfl⟩ := hy
  have hbwS : bw ≤ S := cumWrites_mem_le S bw hbw
  have hS0 : (0:ℚ) < (S:ℚ) := by exact_mod_cast hS
  have hfr : (bw:ℚ)/(S:ℚ) ≤ 1 := by
    rw [div_le_one hS0]; exact_mod_cast hbwS
  constructor
  · have h0 : (0:ℚ) ≤ ((bw:ℚ)/(S:ℚ))/(N:ℚ) := by positivity
    have : ((p:ℚ)-1)/(N:ℚ) ≤ ((p:ℚ)-1)/(N:ℚ) + ((bw:ℚ)/(S:ℚ))/(N:ℚ) := by linarith
    exact mul_le_mul_of_nonneg_right this (by norm_num)
  · have h1 : ((p:ℚ)-1)/(N:ℚ) + ((bw:ℚ)/(S:ℚ))/(N:ℚ)
        ≤ ((p:ℚ)-1)/(N:ℚ) + 1/(N:ℚ) := by
      have := div_le_div_of_nonneg_right hfr (by positivity : (0:ℚ) ≤ (N:ℚ))
      linarith
    have h2 : ((p:ℚ)-1)/(N:ℚ) + 1/(N:ℚ) = (p:ℚ)/(N:ℚ) := by
      rw [div_add_div_same ((p:ℚ)-1) 1 (N:ℚ), sub_add_cancel]
    calc (((p:ℚ)-1)/(N:ℚ) + ((bw:ℚ)/(S:ℚ))/(N:ℚ)) * 100
        ≤ (((p:ℚ)-1)/(N:ℚ) + 1/(N:ℚ)) * 100 :=
          mul_le_mul_of_nonneg_right h1 (by norm_num)
    _ = (p:ℚ)/(N:ℚ) * 100 := by rw [h2]

theorem passProgress_getLast (N S p : Nat) (hS : 0 < S) :
    (passProgress N S p).getLast? = some ((p : ℚ) / (N : ℚ) * 100) := by
  rw [passProgress, List.getLast?_map, cumWrites_getLast S hS]
  have hSne : (S:ℚ) ≠ 0 := by
    exact_mod_cast Nat.pos_iff_ne_zero.mp hS
  simp only [Option.map_some']
  congr 1
  rw [div_self hSne, div_add_div_same ((p:ℚ)-1) 1 (N:ℚ), sub_add_cancel]

theorem purgeProgress_chain' (S N : Nat) (hS : 0 < S) :
    (purgeProgress S N).Chain' (· ≤ ·) := by
  have hnil : [] ∉ (List.range N).map (fun i => passProgress N S (i+1)) := by
    intro hmem
    rw [List.mem_map] at hmem
    obtain ⟨i, -, hi⟩ := hmem
    exact passProgress_ne_nil N S (i+1) hS hi
  rw [purgeProgress, List.chain'_flatten hnil]
  constructor
  · intro l hl
    rw [List.mem_map] at hl
    obtain ⟨i, -, rfl⟩ := hl
    exact passProgress_chain' N S (i+1)
  · rw [List.chain'_map]
    cases N with
    | zero => rw [List.range_zero]; exact trivial
    | succ n =>
        rw [List.chain'_range_succ]
        intro m hm x hx y hy
        rw [passProgress_getLast (n+1) S (m+1) hS, Option.mem_def,
          Option.some.injEq] at hx
        have hymem := List.mem_of_mem_head? hy
        have hb := (passProgress_mem_bounds (n+1) S (m+1+1) hS y hymem).1
        have hcast : ((m+1+1 : ℕ):ℚ) - 1 = ((m+1 : ℕ):ℚ) := by push_cast; ring
        rw [hcast] at hb
        rw [hx] at hb
        exact hb

theorem purgeProgress_mem_bounds (S N : Nat) (hS : 0 < S) :
    ∀ y ∈ purgeProgress S N, 0 ≤ y ∧ y ≤ 100 := by
  intro y hy
  rw [purgeProgress, List.mem_flatten] at hy
  obtain ⟨l, hl, hyl⟩ := hy
  rw [List.mem_map] at hl
  obtain ⟨i, hi, rfl⟩ := hl
  rw [List.mem_range] at hi
  have hN0 : (0:ℚ) < (N:ℚ) := by exact_mod_cast (by omega : 0 < N)
  have hb := passProgress_mem_bounds N S (i+1) hS y hyl
  constructor
  · have h0 : (0:ℚ) ≤ (((i+1:ℕ):ℚ) - 1)/(N:ℚ)*100 := by
      have he : ((i+1:ℕ):ℚ) - 1 = (i:ℚ) := by push_cast; ring
      rw [he]; positivity
    linarith [hb.1]
  · have h1 : ((i+1:ℕ):ℚ)/(N:ℚ)*100 ≤ 100 := by
      have hle : ((i+1:ℕ):ℚ)/(N:ℚ) ≤ 1 := by
        rw [div_le_one hN0]; exact_mod_cast (by omega : i + 1 ≤ N)
      calc ((i+1:ℕ):ℚ)/(N:ℚ)*100 ≤ 1 * 100 :=
            mul_le_mul_of_nonneg_right hle (by norm_num)
      _ = 100 := by norm_num
    linarith [hb.2]

theorem purgeProgress_getLast (S N : Nat) (hS : 0 < S) (hN : 0 < N) :
    (purgeProgress S N).getLast? = some 100 := by
  rw [purgeProgress]
  cases N with
  | zero => omega
  | succ n =>
      rw [List.range_succ, List.map_append, List.flatten_append]
      rw [List.getLast?_append_of_ne_nil]
      · simp only [List.map_cons, List.map_nil, List.flatten_cons, List.flatten_nil,
          List.append_nil]
        rw [passProgress_getLast (n+1) S (n+1) hS]
        have hne : ((n+1:ℕ):ℚ) ≠ 0 := by
          exact_mod_cast (by omega : (n+1:ℕ) ≠ 0)
        rw [div_self hne]
        norm_num
      · simp only [List.map_cons, List.map_nil, List.flatten_cons, List.flatten_nil,
          List.append_nil]
        exact passProgress_ne_nil (n+1) S (n+1) hS

theorem batchProgress_chain' (n m : Nat) : (batchProgress n m).Chain' (· ≤ ·) := by
  rw [batchProgress, List.chain'_map]
  cases m with
  | zero => rw [List.range_zero]; exact trivial
  | succ k =>
      rw [List.chain'_range_succ]
      intro i hi
      have h1 : ((i:ℕ):ℚ) ≤ ((i+1:ℕ):ℚ) := by push_cast; linarith
      have h2 : (0:ℚ) ≤ (n:ℚ) := by positivity
      exact mul_le_mul_of_nonneg_right (div_le_div_of_nonneg_right h1 h2) (by norm_num)

theorem batchProgress_mem_bounds (n m : Nat) (hm : m ≤ n) (hn : 0 < n) :
    ∀ y ∈ batchProgress n m, 0 ≤ y ∧ y ≤ 100 := by
  intro y hy
  rw [batchProgress, List.mem_map] at hy
  obtain ⟨idx, hidx, rfl⟩ := hy
  rw [List.mem_range] at hidx
  have hn0 : (0:ℚ) < (n:ℚ) := by exact_mod_cast hn
  refine ⟨by positivity, ?_⟩
  have hle : ((idx:ℕ):ℚ)/(n:ℚ) ≤ 1 := by
    rw [div_le_one hn0]; exact_mod_cast (by omega : idx ≤ n)
  calc ((idx:ℕ):ℚ)/(n:ℚ)*100 ≤ 1 * 100 := mul_le_mul_of_nonneg_right hle (by norm_num)
  _ = 100 := by norm_num

theorem batchProgress_getLast (n : Nat) (hn : 0 < n) :
    (batchProgress n n).getLast? = some (((n:ℚ) - 1) / (n:ℚ) * 100) := by
  rw [batchProgress, List.getLast?_map]
  have hrange : (List.range n).getLast? = some (n - 1) := by
    cases n with
    | zero => omega
    | succ k => rw [List.range_succ]; simp
  rw [hrange]
  simp only [Option.map_some']
  congr 1
  rw [Nat.cast_sub (by omega : 1 ≤ n), Nat.cast_one]

/-- **C6, counterexample** A completed 1-file `wipe_selection` (or
`wipe_folder`) run reports the single progress value `(0 / 1) * 100 = 0`: the
final reported value of a call that completes without cancellation is not
100 (the loops report `(idx / n) * 100` *before* each file and never forward
the callback to `wipe_file`). -/
theorem progress_final_counterexample :
    (batchProgress 1 1).getLast? = some 0 ∧ (0:ℚ) ≠ 100 := by
  constructor
  · rw [batchProgress, show List.range 1 = [0] from rfl]
    simp
  · norm_num

/-- **C6, amended** Within a single `wipe_file`, `wipe_folder` or
`wipe_selection` call the progress values are non-decreasing and lie in
[0, 100]; a `wipe_file` call (either method) on a non-empty file ends at
exactly 100; but a folder/selection wipe of `n` files that completes without
cancellation ends at `100·(n-1)/n`, not 100. -/
theorem progress_contract (S n m : Nat) (hS : 0 < S) (hn : 0 < n) (hm : m ≤ n) :
    ((clearProgress S).Chain' (· ≤ ·) ∧ ∀ x ∈ clearProgress S, 0 ≤ x ∧ x ≤ 100) ∧
    (clearProgress S).getLast? = some 100 ∧
    ((purgeProgress S 7).Chain' (· ≤ ·) ∧ ∀ x ∈ purgeProgress S 7, 0 ≤ x ∧ x ≤ 100) ∧
    (purgeProgress S 7).getLast? = some 100 ∧
    ((batchProgress n m).Chain' (· ≤ ·) ∧ ∀ x ∈ batchProgress n m, 0 ≤ x ∧ x ≤ 100) ∧
    (batchProgress n n).getLast? = some (((n:ℚ) - 1) / (n:ℚ) * 100) :=
  ⟨⟨clearProgress_chain' S, clearProgress_mem_bounds S hS⟩,
   clearProgress_getLast S hS,
   ⟨purgeProgress_chain' S 7 hS, purgeProgress_mem_bounds S 7 hS⟩,
   purgeProgress_getLast S 7 hS (by omega),
   ⟨batchProgress_chain' n m, batchProgress_mem_bounds n m hm hn⟩,
   batchProgress_getLast n hn⟩

/-- Witness for `progress_contract`: a 1-byte file and a 2-file batch. -/
theorem progress_contract_witness :
    (clearProgress 1).Chain' (· ≤ ·) ∧
    (clearProgress 1).getLast? = some 100 ∧
    (purgeProgress 1 7).getLast? = some 100 ∧
    (batchProgress 2 2).getLast? = some (((2:ℚ) - 1) / (2:ℚ) * 100) := by
  have h := progress_contract 1 2 2 (by omega) (by omega) (by omega)
  exact ⟨h.1.1, h.2.1, h.2.2.2.1, h.2.2.2.2.2⟩

/-- **C4** The claim says `validate_path` on a symlink yields `valid=false`
with `type='symlink'`.  The code checks `is_file()` *before* `is_symlink()`,
and `Path.is_file()` follows symlinks, so a symlink to a readable regular
file is classified as `type='file'` and `valid=true`: the code's own
`'Symbolic links are not supported'` branch (lines 57-60) is unreachable for
any symlink whose target is a file or directory.  This theorem evaluates the
embedded `validate_path` at such a symlink. -/
theorem validate_path_symlink_code_bug :
    symlinkToGoodFile.isSymlink = true ∧
    (validate_path symlinkToGoodFile).valid = true ∧
    (validate_path symlinkToGoodFile).type_ = some "file" ∧
    (validate_path symlinkToGoodFile).errors = [] := by
  refine ⟨rfl, rfl, rfl, rfl⟩

/-- **C9, counterexample** The claim says a system file lands in
`system_files` regardless of its permission bits.  But `validate_path` runs
*first* (line 155) and rejects an unreadable path, which then lands in
`invalid_files` — the system-file check is never reached, `system_files`
stays empty. -/
theorem validate_selection_system_counterexample :
    (validate_selection (fun _ => true) [unreadableSystemFile]).system_files = [] ∧
    (validate_selection (fun _ => true) [unreadableSystemFile]).invalid_files
      = [unreadableSystemFile.path] ∧
    (validate_selection (fun _ => true) [unreadableSystemFile]).valid = false := by
  refine ⟨rfl, rfl, rfl⟩

/-- `validate_path` never reads the writability bits. -/
theorem validate_path_ignores_writable (p : PathInfo) (w pw : Bool) :
    validate_path { p with writable := w, parentWritable := pw }
      = validate_path p := by
  simp only [validate_path]

/-- **C9, amended** For a path `p` that passes path validation (exists,
resolves to a file or directory, readable) and whose *lowercased* path the
platform handler flags as a system file, `validate_selection [p]` returns
`valid=false` with `p` in `system_files` and not in `valid_files` — and
this outcome is independent of the writable/deletable permission bits,
because the system-file check precedes `validate_permissions`.  (An
*unreadable* system file instead fails `validate_path` and lands in
`invalid_files`.) -/
theorem validate_selection_system_file (isSys : String → Bool) (e : SelEntry)
    (hpath : (validate_path e.info).valid = true)
    (hsys : isSys e.path.toLower = true) :
    (validate_selection isSys [e]).valid = false ∧
    (validate_selection isSys [e]).system_files = [e.path] ∧
    e.path ∉ (validate_selection isSys [e]).valid_files ∧
    (∀ w pw : Bool,
      validate_selection isSys [⟨e.path, { e.info with writable := w, parentWritable := pw }⟩]
        = validate_selection isSys [e]) := by
  have hclass : selClassify isSys [e] = ([], [], [e.path]) := by
    simp only [selClassify, hpath, hsys]
    simp
  refine ⟨?_, ?_, ?_, ?_⟩
  · simp [validate_selection, hclass]
  · simp [validate_selection, hclass]
  · simp [validate_selection, hclass]
  · intro w pw
    have hpath' : (validate_path { e.info with writable := w, parentWritable := pw }).valid = true := by
      rw [validate_path_ignores_writable]; exact hpath
    have hclass' : selClassify isSys
        [⟨e.path, { e.info with writable := w, parentWritable := pw }⟩]
          = ([], [], [e.path]) := by
      simp only [selClassify, hpath', hsys]
      simp
    simp [validate_selection, hclass, hclass']

/-- Witness for `validate_selection_system_file`: a readable system file. -/
theorem validate_selection_system_file_witness :
    (validate_selection (fun _ => true) [readableSystemFile]).valid = false ∧
    (validate_selection (fun _ => true) [readableSystemFile]).system_files
      = [readableSystemFile.path] := by
  have h := validate_selection_system_file (fun _ => true)
    readableSystemFile (by decide) rfl
  exact ⟨h.1, h.2.1⟩

theorem lit_strip (l a b : List Char) (h : l ++ a = l ++ b) : a = b := by
  induction l with
  | nil => exact h
  | cons c t ih =>
      simp only [List.cons_append] at h
      injection h with _ h2
      exact ih h2

theorem delim_split (d : Char) :
    ∀ (a b x y : List Char), d ∉ a → d ∉ b →
      a ++ d :: x = b ++ d :: y → a = b ∧ x = y := by
  intro a
  induction a with
  | nil =>
      intro b x y _ hb h
      cases b with
      | nil =>
          simp only [List.nil_append] at h
          injection h with _ h2
          exact ⟨rfl, h2⟩
      | cons c t =>
          simp only [List.nil_append, List.cons_append] at h
          injection h with h1 _
          exact absurd (h1 ▸ List.mem_cons_self c t) hb
  | cons c t ih =>
      intro b x y ha hb h
      cases b with
      | nil =>
          simp only [List.cons_append, List.nil_append] at h
          injection h with h1 _
          refine absurd ?_ ha
          rw [← h1]
          exact List.mem_cons_self c t
      | cons c' t' =>
          simp only [List.cons_append] at h
          injection h with h1 h2
          obtain ⟨he, hx⟩ := ih t' x y
            (fun hm => ha (List.mem_cons_of_mem _ hm))
            (fun hm => hb (List.mem_cons_of_mem _ hm)) h2
          exact ⟨by rw [h1, he], hx⟩

theorem quote_not_mem_of_safe (s : List Char) (hs : SafeStr s) : '"' ∉ s :=
  fun hm => (hs _ hm).1 rfl

theorem jstr_split (s s' x y : List Char) (hs : SafeStr s) (hs' : SafeStr s') :
    jstr s ++ x = jstr s' ++ y → s = s' ∧ x = y := by
  intro h
  simp only [jstr, List.cons_append, List.append_assoc, List.singleton_append] at h
  injection h with _ h2
  exact delim_split '"' s s' x y (quote_not_mem_of_safe s hs)
    (quote_not_mem_of_safe s' hs') h2

theorem jbool_split (b b' : Bool) (x y : List Char) :
    jbool b ++ x = jbool b' ++ y → b = b' ∧ x = y := by
  cases b <;> cases b' <;> intro h <;> simp [jbool] at h <;> exact ⟨rfl, h⟩

theorem joptstr_split (o o' : Option (List Char)) (x y : List Char)
    (ho : OptSafe o) (ho' : OptSafe o') :
    joptstr o ++ x = joptstr o' ++ y → o = o' ∧ x = y := by
  cases o <;> cases o' <;> intro h
  · simp [joptstr, jnull] at h
    exact ⟨rfl, h⟩
  · simp [joptstr, jnull, jstr] at h
  · simp [joptstr, jnull, jstr] at h
  · simp only [joptstr] at h
    obtain ⟨he, hx⟩ := jstr_split _ _ _ _ ho ho' h
    exact ⟨by rw [he], hx⟩

theorem comma_not_mem_numtok (t : List Char) (ht : NumTok t) : ',' ∉ t :=
  fun hm => absurd (ht.2 ',' hm) (by decide)

theorem joptnum_split (o o' : Option (List Char)) (x y : List Char)
    (ho : OptNum o) (ho' : OptNum o') :
    joptnum o ++ ',' :: x = joptnum o' ++ ',' :: y → o = o' ∧ x = y := by
  have hnull : (',' : Char) ∉ jnull := by decide
  cases o <;> cases o' <;> intro h
  · exact ⟨rfl, (delim_split ',' jnull jnull x y hnull hnull h).2⟩
  · rename_i t
    obtain ⟨he, -⟩ := delim_split ',' jnull t x y hnull
      (comma_not_mem_numtok t ho') h
    exfalso
    have hn : 'n' ∈ t := by rw [← he]; decide
    exact absurd (ho'.2 'n' hn) (by decide)
  · rename_i t
    obtain ⟨he, -⟩ := delim_split ',' t jnull x y
      (comma_not_mem_numtok t ho) hnull h
    exfalso
    have hn : 'n' ∈ t := by rw [he]; decide
    exact absurd (ho.2 'n' hn) (by decide)
  · rename_i t t'
    obtain ⟨he, hx⟩ := delim_split ',' t t' x y
      (comma_not_mem_numtok t ho) (comma_not_mem_numtok t' ho') h
    exact ⟨by rw [he], hx⟩

theorem decRepr_chars (n : Nat) : ∀ ch ∈ decRepr n, ch ∈ ("0123456789").data := by
  intro ch hch
  unfold decRepr at hch
  by_cases h0 : n = 0
  · rw [if_pos h0] at hch
    simp only [List.mem_singleton] at hch
    subst hch
    decide
  · rw [if_neg h0] at hch
    rw [List.mem_map] at hch
    obtain ⟨d, hd, rfl⟩ := hch
    rw [List.mem_reverse] at hd
    have hd10 : d < 10 := Nat.digits_lt_base (by norm_num) hd
    exact (show ∀ d' < 10, Nat.digitChar d' ∈ ("0123456789").data by decide) d hd10

theorem comma_not_mem_decRepr (n : Nat) : ',' ∉ decRepr n := by
  intro hm
  have := decRepr_chars n ',' hm
  revert this
  decide

theorem rbrace_not_mem_decRepr (n : Nat) : rbraceChar ∉ decRepr n := by
  intro hm
  have := decRepr_chars n rbraceChar hm
  revert this
  decide

theorem map_digitChar_inj :
    ∀ (l1 l2 : List Nat), (∀ x ∈ l1, x < 10) → (∀ x ∈ l2, x < 10) →
      l1.map Nat.digitChar = l2.map Nat.digitChar → l1 = l2 := by
  intro l1
  induction l1 with
  | nil =>
      intro l2 _ _ h
      cases l2 with
      | nil => rfl
      | cons b t2 => simp at h
  | cons a t ih =>
      intro l2 h1 h2 h
      cases l2 with
      | nil => simp at h
      | cons b t2 =>
          simp only [List.map_cons, List.cons.injEq] at h
          have hab : a = b :=
            (show ∀ a' < 10, ∀ b' < 10,
                Nat.digitChar a' = Nat.digitChar b' → a' = b' by decide)
              a (h1 a (List.mem_cons_self a t))
              b (h2 b (List.mem_cons_self b t2)) h.1
          rw [hab, ih t2 (fun x hx => h1 x (List.mem_cons_of_mem _ hx))
            (fun x hx => h2 x (List.mem_cons_of_mem _ hx)) h.2]

theorem decRepr_ne_zero_case (n : Nat) (hn : n ≠ 0)
    (h : decRepr n = ['0']) : False := by
  unfold decRepr at h
  rw [if_neg hn] at h
  cases hd : (Nat.digits 10 n).reverse with
  | nil => rw [hd] at h; simp at h
  | cons d rest =>
      rw [hd] at h
      simp only [List.map_cons, List.cons.injEq] at h
      have hrest : rest = [] := by
        have := h.2
        cases rest with
        | nil => rfl
        | cons r rr => simp at this
      have hrev : Nat.digits 10 n = [d] := by
        have := congrArg List.reverse hd
        rw [List.reverse_reverse] at this
        rw [this, hrest]
        rfl
      have hd10 : d < 10 :=
        Nat.digits_lt_base (by norm_num) (by rw [hrev]; exact List.mem_singleton.mpr rfl)
      have hd0 : d = 0 :=
        (show ∀ d' < 10, Nat.digitChar d' = '0' → d' = 0 by decide) d hd10 h.1
      have hofd := Nat.ofDigits_digits 10 n
      rw [hrev, hd0] at hofd
      simp [Nat.ofDigits] at hofd
      exact hn hofd.symm

theorem decRepr_inj (m n : Nat) (h : decRepr m = decRepr n) : m = n := by
  by_cases hm : m = 0 <;> by_cases hn : n = 0
  · rw [hm, hn]
  · exfalso
    subst hm
    have h0 : decRepr n = ['0'] := by rw [← h]; rfl
    exact decRepr_ne_zero_case n hn h0
  · exfalso
    subst hn
    have h0 : decRepr m = ['0'] := by rw [h]; rfl
    exact decRepr_ne_zero_case m hm h0
  · unfold decRepr at h
    rw [if_neg hm, if_neg hn] at h
    have hdig : Nat.digits 10 m = Nat.digits 10 n := by
      have hrev := map_digitChar_inj _ _
        (fun x hx => Nat.digits_lt_base (by norm_num) (List.mem_reverse.mp hx))
        (fun x hx => Nat.digits_lt_base (by norm_num) (List.mem_reverse.mp hx)) h
      have := congrArg List.reverse hrev
      rwa [List.reverse_reverse, List.reverse_reverse] at this
    have h1 := Nat.ofDigits_digits 10 m
    have h2 := Nat.ofDigits_digits 10 n
    rw [hdig] at h1
    rw [← h1, h2]

theorem serFile_head (e : FileEntry) (r : List Char) :
    serFile e ++ r = lbraceChar :: (("\"path\": ").data ++ (jstr e.path
      ++ ((", \"success\": ").data ++ (jbool e.success
      ++ ((", \"verified\": ").data ++ (jbool e.verified ++ ([rbraceChar] ++ r))))))) := by
  simp only [serFile, List.append_assoc]
  rfl

theorem serFile_split (e e' : FileEntry) (x y : List Char)
    (he : SafeStr e.path) (he' : SafeStr e'.path) :
    serFile e ++ x = serFile e' ++ y → e = e' ∧ x = y := by
  intro h
  simp only [serFile, List.append_assoc] at h
  have h1 := lit_strip _ _ _ h
  obtain ⟨hp, h2⟩ := jstr_split _ _ _ _ he he' h1
  have h3 := lit_strip _ _ _ h2
  obtain ⟨hs, h4⟩ := jbool_split _ _ _ _ h3
  have h5 := lit_strip _ _ _ h4
  obtain ⟨hv, h6⟩ := jbool_split _ _ _ _ h5
  have h7 := lit_strip _ _ _ h6
  cases e; cases e'
  dsimp only at hp hs hv
  subst hp; subst hs; subst hv
  exact ⟨rfl, h7⟩

theorem serFilesAux_split :
    ∀ (l l' : List FileEntry) (x y : List Char),
      (∀ e ∈ l, SafeStr e.path) → (∀ e ∈ l', SafeStr e.path) →
      serFilesAux l ++ ']' :: x = serFilesAux l' ++ ']' :: y →
      l = l' ∧ x = y := by
  intro l
  induction l with
  | nil =>
      intro l' x y _ hl' h
      cases l' with
      | nil =>
          simp only [serFilesAux, List.nil_append] at h
          injection h with _ h2
          exact ⟨rfl, h2⟩
      | cons e' t' =>
          exfalso
          cases t' with
          | nil =>
              simp only [serFilesAux, List.nil_append] at h
              rw [serFile_head] at h
              injection h with h1 _
              exact absurd h1 (by decide)
          | cons e2' t2' =>
              simp only [serFilesAux, List.nil_append, List.append_assoc] at h
              rw [serFile_head] at h
              injection h with h1 _
              exact absurd h1 (by decide)
  | cons e t ih =>
      intro l' x y hl hl' h
      cases l' with
      | nil =>
          exfalso
          cases t with
          | nil =>
              simp only [serFilesAux, List.nil_append] at h
              rw [serFile_head] at h
              injection h with h1 _
              exact absurd h1 (by decide)
          | cons e2 t2 =>
              simp only [serFilesAux, List.nil_append, List.append_assoc] at h
              rw [serFile_head] at h
              injection h with h1 _
              exact absurd h1 (by decide)
      | cons e' t' =>
          have hse : SafeStr e.path := hl e (List.mem_cons_self e t)
          have hse' : SafeStr e'.path := hl' e' (List.mem_cons_self e' t')
          cases t with
          | nil =>
              cases t' with
              | nil =>
                  simp only [serFilesAux] at h
                  obtain ⟨hee, hxy⟩ := serFile_split e e' _ _ hse hse' h
                  injection hxy with _ hxy2
                  exact ⟨by rw [hee], hxy2⟩
              | cons e2' t2' =>
                  exfalso
                  simp only [serFilesAux, List.append_assoc] at h
                  obtain ⟨-, hxy⟩ := serFile_split e e' _ _ hse hse' h
                  simp only [List.cons_append, List.nil_append] at hxy
                  injection hxy with h1 _
                  exact absurd h1 (by decide)
          | cons e2 t2 =>
              cases t' with
              | nil =>
                  exfalso
                  simp only [serFilesAux, List.append_assoc] at h
                  obtain ⟨-, hxy⟩ := serFile_split e e' _ _ hse hse' h
                  simp only [List.cons_append, List.nil_append] at hxy
                  injection hxy with h1 _
                  exact absurd h1 (by decide)
              | cons e2' t2' =>
                  simp only [serFilesAux, List.append_assoc] at h
                  obtain ⟨hee, hxy⟩ := serFile_split e e' _ _ hse hse' h
                  simp only [List.cons_append, List.nil_append] at hxy
                  injection hxy with _ hxy2
                  injection hxy2 with _ hxy3
                  obtain ⟨ht, hx⟩ := ih (e2' :: t2') x y
                    (fun a ha => hl a (List.mem_cons_of_mem _ ha))
                    (fun a ha => hl' a (List.mem_cons_of_mem _ ha)) hxy3
                  exact ⟨by rw [hee, ht], hx⟩

theorem serFiles_split (l l' : List FileEntry) (x y : List Char)
    (hl : ∀ e ∈ l, SafeStr e.path) (hl' : ∀ e ∈ l', SafeStr e.path) :
    serFiles l ++ x = serFiles l' ++ y → l = l' ∧ x = y := by
  intro h
  simp only [serFiles, List.cons_append, List.append_assoc,
    List.singleton_append] at h
  injection h with _ h2
  exact serFilesAux_split l l' x y hl hl' h2

set_option maxRecDepth 4000 in
/-- Two well-formed payloads with the same canonical serialization are
equal: the sorted-key `json.dumps` rendering loses no information. -/
theorem serCert_inj (c c' : CertPayload) (hc : WFPayload c) (hc' : WFPayload c')
    (h : serCert c = serCert c') : c = c' := by
  obtain ⟨w1, w2, w3, w4, w5, w6, w7, w8⟩ := hc
  obtain ⟨v1, v2, v3, v4, v5, v6, v7, v8⟩ := hc'
  simp only [serCert, List.append_assoc, List.cons_append, List.nil_append,
    List.cons.injEq, true_and] at h
  obtain ⟨e_cid, s2⟩ := jstr_split _ _ _ _ w1 v1 h
  simp only [List.cons.injEq, true_and] at s2
  obtain ⟨e_md, s4⟩ := jstr_split _ _ _ _ w7 v7 s2
  simp only [List.cons.injEq, true_and] at s4
  obtain ⟨e_files, s6⟩ := serFiles_split _ _ _ _ w8 v8 s4
  simp only [List.cons.injEq, true_and] at s6
  obtain ⟨e_dur, s8⟩ := joptnum_split _ _ _ _ w6 v6 s6
  simp only [List.cons.injEq, true_and] at s8
  obtain ⟨e_et, s10⟩ := joptstr_split _ _ _ _ w5 v5 s8
  simp only [List.cons.injEq, true_and] at s10
  obtain ⟨e_m, s12⟩ := jstr_split _ _ _ _ w3 v3 s10
  simp only [List.cons.injEq, true_and] at s12
  obtain ⟨e_st, s14⟩ := joptstr_split _ _ _ _ w4 v4 s12
  simp only [List.cons.injEq, true_and] at s14
  obtain ⟨e_f, s16⟩ := delim_split ',' _ _ _ _
    (comma_not_mem_decRepr c.failed) (comma_not_mem_decRepr c'.failed) s14
  simp only [List.cons.injEq, true_and] at s16
  obtain ⟨e_s, s18⟩ := delim_split ',' _ _ _ _
    (comma_not_mem_decRepr c.successful) (comma_not_mem_decRepr c'.successful) s16
  simp only [List.cons.injEq, true_and] at s18
  obtain ⟨e_tf, s20⟩ := delim_split rbraceChar _ _ _ _
    (rbrace_not_mem_decRepr c.total_files) (rbrace_not_mem_decRepr c'.total_files) s18
  simp only [List.cons.injEq, true_and] at s20
  obtain ⟨e_ts, -⟩ := jstr_split _ _ _ _ w2 v2 s20
  have n_f := decRepr_inj _ _ e_f
  have n_s := decRepr_inj _ _ e_s
  have n_tf := decRepr_inj _ _ e_tf
  cases c; cases c'
  dsimp only at e_cid e_md e_files e_dur e_et e_m e_st n_f n_s n_tf e_ts
  subst e_cid; subst e_md; subst e_files; subst e_dur; subst e_et
  subst e_m; subst e_st; subst n_f; subst n_s; subst n_tf; subst e_ts
  rfl

/-- **C3** With an initialized keypair `k`: (1) a generated certificate
verifies; (2) altering the signed payload in any way — in particular any
single-byte mutation of any field other than `signature`/`public_key` —
makes verification fail, because the signature is bound to the
deterministic sorted-key serialization, which is injective on well-formed
payloads (`WFPayload`: string fields need no JSON escaping, the duration is
a numeric token — exactly when our serializer is byte-identical to
`json.dumps`). -/
theorem certificate_round_trip (k : Nat) (certId ts : List Char) (b : BatchInput) :
    verify_certificate (generate_wipe_certificate (some k) (some k) certId ts b) = true ∧
    (∀ c' : CertPayload,
      WFPayload (buildPayload certId ts b) → WFPayload c' →
      c' ≠ buildPayload certId ts b →
      verify_certificate
        { payload := c',
          signature := (generate_wipe_certificate (some k) (some k) certId ts b).signature,
          public_key := (generate_wipe_certificate (some k) (some k) certId ts b).public_key }
        = false) := by
  constructor
  · simp [verify_certificate, generate_wipe_certificate, sign_deletion_log, rsa_verify]
  · intro c' hwf hwf' hne
    simp only [verify_certificate, generate_wipe_certificate, sign_deletion_log,
      rsa_verify]
    by_cases heq : serCert (buildPayload certId ts b) = serCert c'
    · exact absurd (serCert_inj _ _ hwf hwf' heq).symm hne
    · simp [heq]

/-- Witness for `certificate_round_trip`: a concrete certificate verifies,
and the same signature over the one-byte-mutated payload is rejected. -/
theorem certificate_round_trip_witness :
    verify_certificate (generate_wipe_certificate (some 7) (some 7)
      (("CERTID01").data) (("2025-01-01T00:00:06").data) sampleBatch) = true ∧
    verify_certificate
      { payload := mutatedPayload,
        signature := (generate_wipe_certificate (some 7) (some 7)
          (("CERTID01").data) (("2025-01-01T00:00:06").data) sampleBatch).signature,
        public_key := (generate_wipe_certificate (some 7) (some 7)
          (("CERTID01").data) (("2025-01-01T00:00:06").data) sampleBatch).public_key }
      = false := by
  have h := certificate_round_trip 7 (("CERTID01").data)
    (("2025-01-01T00:00:06").data) sampleBatch
  exact ⟨h.1, h.2 mutatedPayload (by decide) (by decide) (by decide)⟩

/-- **C10** `sign_deletion_log` never raises and returns the empty
signature on failure (in particular with an uninitialized private key); a
certificate whose `signature` field is empty or missing never verifies; so
a certificate produced after a signing failure can never verify as true. -/
theorem sign_fail_closed :
    (∀ msg, sign_deletion_log none msg = none) ∧
    (∀ rec : CertRecord, rec.signature = none → verify_certificate rec = false) ∧
    (∀ (pubkey : Option Nat) (certId ts : List Char) (b : BatchInput),
      verify_certificate (generate_wipe_certificate none pubkey certId ts b) = false) := by
  refine ⟨fun _ => rfl, ?_, ?_⟩
  · intro rec h
    unfold verify_certificate
    rw [h]
  · intro pubkey certId ts b
    unfold verify_certificate generate_wipe_certificate
    cases pubkey <;> rfl

/-- Witness for `sign_fail_closed`. -/
theorem sign_fail_closed_witness :
    sign_deletion_log none (("abc").data) = none ∧
    verify_certificate { payload := samplePayload, signature := none,
                         public_key := some 7 } = false ∧
    verify_certificate (generate_wipe_certificate none (some 7)
      (("CERTID01").data) (("t").data) sampleBatch) = false := by
  have h := sign_fail_closed
  exact ⟨h.1 _, h.2.1 _ rfl, h.2.2 _ _ _ _⟩

/-- **C8, counterexample** `generate_wipe_certificate` re-raises: a failing
certificate-file write propagates out of the call instead of being turned
into a failure result. -/
theorem generate_certificate_raises :
    generate_wipe_certificateE (some 7) (some 7) (("CERTID01").data)
      (("t").data) sampleBatch (some "disk full") = Except.error "disk full" := rfl

/-- **C8, amended** `wipe_file`, `wipe_folder`, `wipe_selection` and
`verify_certificate` return a result or failure indicator on every input,
propagating no exception; `generate_wipe_certificate` is the exception: its
`except` clause ends in `raise`, so a failure while writing the certificate
file propagates to the caller. -/
theorem core_operations_no_raise :
    (∀ ex cr m mOK vOK exn, ∃ r, wipe_fileE ex cr m mOK vOK exn = .ok r) ∧
    (∀ os cf exn, ∃ r, wipe_folderE os cf exn = .ok r) ∧
    (∀ os cf exn, ∃ r, wipe_selectionE os cf exn = .ok r) ∧
    (∀ pf rec, ∃ b, verify_certificateE pf rec = .ok b) ∧
    (∀ key pk certId ts b e,
      generate_wipe_certificateE key pk certId ts b (some e) = .error e) := by
  refine ⟨?_, ?_, ?_, ?_, ?_⟩
  · intro ex cr m mOK vOK exn
    cases exn <;> exact ⟨_, rfl⟩
  · intro os cf exn
    cases exn <;> exact ⟨_, rfl⟩
  · intro os cf exn
    cases exn <;> exact ⟨_, rfl⟩
  · intro pf rec
    exact ⟨_, rfl⟩
  · intro key pk certId ts b e
    rfl

end ZeroTrace
